import Mathlib

/-!
# Verification of the warikan (split-the-bill) settlement engine

Shallow embedding of `src/utils/settlement.ts`: the balance calculator
(`calculateBalances`), the rounding normalizer (`roundBalancesToUnit`) and
the greedy settlement planner (`buildSettlementPlan`).

Monetary quantities (TypeScript `number`) are modelled as exact rationals
`ℚ`; participant ids are `String`.  JavaScript's `Math.round` (nearest
integer, ties towards +∞) is modelled by `jsRound`.  The JavaScript `Map`
(insertion ordered, `set`/`get` with in-place mutation of the stored
record) is modelled by an association list with `mapSet` / `mapAdjust`.
-/

set_option linter.unusedVariables false

/-- A participant record (`Participant` in `src/types`): unique `id` plus a
display `name`. -/
structure Participant where
  id : String
  name : String
deriving DecidableEq, Repr

/-- One share of an expense (`ExpenseShare`): the amount `participantId`
owes for that expense. -/
structure ExpenseShare where
  participantId : String
  amount : ℚ
deriving DecidableEq, Repr

/-- An expense (`Expense`): total `amount` fronted by `payerId`, allocated
by `shares`. -/
structure Expense where
  id : String
  title : String
  amount : ℚ
  payerId : String
  shares : List ExpenseShare
deriving DecidableEq, Repr

/-- `CalculatedBalance` from `settlement.ts`: net position of one
participant. -/
structure CalculatedBalance where
  participant : Participant
  paid : ℚ
  shouldPay : ℚ
  diff : ℚ
deriving DecidableEq, Repr

/-- `RoundedBalance = CalculatedBalance & { roundedDiff }`. -/
structure RoundedBalance extends CalculatedBalance where
  roundedDiff : ℚ
deriving DecidableEq, Repr

/-- `SettlementEntry`: directed payment instruction from `«from»` to `to`. -/
structure SettlementEntry where
  «from» : String
  «to» : String
  amount : ℚ
deriving DecidableEq, Repr

/-- JavaScript `Math.round`: nearest integer, ties round towards `+∞`
(`Math.round (-2.5) = -2`).  Exactly `⌊x + 1/2⌋` on finite values. -/
def jsRound (q : ℚ) : ℤ := ⌊q + 1 / 2⌋

/-- `ROUNDING_UNIT` constant of the source. -/
def roundingUnit : ℚ := 100

/-- `roundToUnit` of the source on finite values:
`Math.round(value / unit) * unit`.  (The `Number.isFinite` guard of the
source is modelled by `roundToUnitJs` below; a finite `value` reaches this
formula.) -/
def roundToUnit (value unit : ℚ) : ℚ := (jsRound (value / unit) : ℚ) * unit

/-- The full `roundToUnit` of the source, on a value that may be a
non-finite double (`none` stands for `NaN`/`±Infinity`): the
`if (!Number.isFinite(value)) return 0;` guard, then the rounding
formula. -/
def roundToUnitJs (value : Option ℚ) (unit : ℚ) : ℚ :=
  match value with
  | none => 0
  | some v => roundToUnit v unit

/-! ## The ledger map

`calculateBalances` builds a JavaScript `Map` from participant id to a
mutable record `{ participant, paid, shouldPay }`.  A JS `Map` preserves
insertion order; `set` overwrites in place when the key is present and
appends otherwise; `get` hands out the stored record, whose mutation is
modelled by `mapAdjust` (a no-op when the key is absent, mirroring the
`if (payer)` / `if (!holder) return` guards). -/

/-- The mutable accumulation record held in the ledger. -/
structure LedgerEntry where
  participant : Participant
  paid : ℚ
  shouldPay : ℚ
deriving DecidableEq, Repr

/-- JS `Map.set`: replace the value at the first occurrence of the key,
keeping its position, or append a fresh binding. -/
def mapSet (k : String) (v : LedgerEntry) :
    List (String × LedgerEntry) → List (String × LedgerEntry)
  | [] => [(k, v)]
  | (k', v') :: rest =>
      if k' = k then (k', v) :: rest else (k', v') :: mapSet k v rest

/-- Mutation through JS `Map.get`: update the value stored at the key (at
its first occurrence), and do nothing when the key is absent. -/
def mapAdjust (k : String) (f : LedgerEntry → LedgerEntry) :
    List (String × LedgerEntry) → List (String × LedgerEntry)
  | [] => []
  | (k', v') :: rest =>
      if k' = k then (k', f v') :: rest else (k', v') :: mapAdjust k f rest

/-- Processing of a single expense by the `expenses.forEach` body:
skip non-positive amounts, credit the payer's `paid` when the payer is a
known key, then add each share's amount to the holder's `shouldPay` when
the holder is a known key. -/
def applyExpense (ledger : List (String × LedgerEntry)) (e : Expense) :
    List (String × LedgerEntry) :=
  if e.amount ≤ 0 then ledger
  else
    let afterPayer :=
      mapAdjust e.payerId (fun en => { en with paid := en.paid + e.amount }) ledger
    e.shares.foldl
      (fun led s =>
        mapAdjust s.participantId
          (fun en => { en with shouldPay := en.shouldPay + s.amount }) led)
      afterPayer

/-- `calculateBalances` of `settlement.ts`: seed the ledger with a zero
record per participant, fold the expenses over it, then finalize each
entry with `Math.round` and `diff = paid - shouldPay`. -/
def calculateBalances (participants : List Participant) (expenses : List Expense) :
    List CalculatedBalance :=
  let ledger0 := participants.foldl
    (fun led p => mapSet p.id ⟨p, 0, 0⟩ led) []
  let ledger := expenses.foldl applyExpense ledger0
  ledger.map (fun kv =>
    let paid : ℚ := jsRound kv.2.paid
    let shouldPay : ℚ := jsRound kv.2.shouldPay
    { participant := kv.2.participant
      paid := paid
      shouldPay := shouldPay
      diff := paid - shouldPay })

/-! ## The rounding normalizer -/

/-- The `rounded.reduce((max, balance) => balance.roundedDiff >
max.roundedDiff ? balance : max)` accumulator, walking the tail with the
running best value and its index (`i` is the index of the head of the
remaining list). -/
def reduceMaxAux (best : ℕ × ℚ) (i : ℕ) : List ℚ → ℕ × ℚ
  | [] => best
  | x :: xs => reduceMaxAux (if x > best.2 then (i, x) else best) (i + 1) xs

/-- Index of the element a value-projecting `reduce`-with-`>` returns: the
first maximum of the list (index 0 of an empty list). -/
def firstMaxIdx : List ℚ → ℕ
  | [] => 0
  | x :: xs => (reduceMaxAux (0, x) 1 xs).1

/-- The mirror accumulator for `balance.roundedDiff < min.roundedDiff`. -/
def reduceMinAux (best : ℕ × ℚ) (i : ℕ) : List ℚ → ℕ × ℚ
  | [] => best
  | x :: xs => reduceMinAux (if x < best.2 then (i, x) else best) (i + 1) xs

/-- Index of the first minimum of the list (the element the `reduce` with
`<` returns). -/
def firstMinIdx : List ℚ → ℕ
  | [] => 0
  | x :: xs => (reduceMinAux (0, x) 1 xs).1

/-- `target.roundedDiff -= totalRounded`, where `target` is the list
element at position `i` (mutating one object of the `rounded` array). -/
def subtractAt (t : ℚ) : ℕ → List RoundedBalance → List RoundedBalance
  | _, [] => []
  | 0, b :: bs => { b with roundedDiff := b.roundedDiff - t } :: bs
  | n + 1, b :: bs => b :: subtractAt t n bs

/-- `roundBalancesToUnit` of `settlement.ts`: snap every `diff` to the
unit, then when the naive rounded total is non-zero (and the list is
non-empty) subtract the whole drift from the first maximum (total > 0) or
first minimum (total < 0) `roundedDiff`. -/
def roundBalancesToUnit (balances : List CalculatedBalance) (unit : ℚ) :
    List RoundedBalance :=
  let rounded := balances.map (fun b =>
    { b with roundedDiff := roundToUnit b.diff unit })
  let totalRounded := (rounded.map (fun b => b.roundedDiff)).sum
  if totalRounded ≠ 0 ∧ 0 < rounded.length then
    if totalRounded > 0 then
      subtractAt totalRounded (firstMaxIdx (rounded.map (fun b => b.roundedDiff))) rounded
    else
      subtractAt totalRounded (firstMinIdx (rounded.map (fun b => b.roundedDiff))) rounded
  else rounded

/-! ## The settlement planner -/

/-- The debtor/creditor partition of `buildSettlementPlan`: creditors keep
their positive `roundedDiff`, debtors its absolute value, both in input
order. -/
def creditorsOf (balances : List RoundedBalance) : List (String × ℚ) :=
  (balances.filter (fun b => 0 < b.roundedDiff)).map
    (fun b => (b.participant.id, b.roundedDiff))

/-- Debtor side of the partition (see `creditorsOf`). -/
def debtorsOf (balances : List RoundedBalance) : List (String × ℚ) :=
  (balances.filter (fun b => b.roundedDiff < 0)).map
    (fun b => (b.participant.id, |b.roundedDiff|))

/-- The two-cursor greedy loop of `buildSettlementPlan`, written as a
recursion over the remaining debtor and creditor suffixes.  Each step
transfers `amount = min debtor creditor`, emits an entry when the amount
is positive, and advances each side whose remaining amount has just become
exactly 0.  Because the transferred amount equals one of the two heads, at
least one side is consumed in every step (the source loop relies on the
same fact for termination). -/
def greedyLoop : List (String × ℚ) → List (String × ℚ) → List SettlementEntry
  | [], _ => []
  | _ :: _, [] => []
  | d :: ds, c :: cs =>
      let amount := min d.2 c.2
      let emitted := if 0 < amount then [SettlementEntry.mk d.1 c.1 amount] else []
      if d.2 ≤ c.2 then
        -- amount = d.2, the debtor's remaining reaches 0: advance the debtor,
        -- and the creditor too when its remaining also reached 0.
        if c.2 - amount = 0 then emitted ++ greedyLoop ds cs
        else emitted ++ greedyLoop ds ((c.1, c.2 - amount) :: cs)
      else
        -- amount = c.2 < d.2: only the creditor's remaining reaches 0.
        emitted ++ greedyLoop ((d.1, d.2 - amount) :: ds) cs
termination_by ds cs => ds.length + cs.length
decreasing_by all_goals (simp [List.length]; try omega)

/-- The same loop instrumented with its final state: the debtor and
creditor suffixes left when the `while` condition
`debtorIndex < debtors.length && creditorIndex < creditors.length` first
fails. -/
def greedyLeftover : List (String × ℚ) → List (String × ℚ) →
    List (String × ℚ) × List (String × ℚ)
  | [], cs => ([], cs)
  | d :: ds, [] => (d :: ds, [])
  | d :: ds, c :: cs =>
      let amount := min d.2 c.2
      if d.2 ≤ c.2 then
        if c.2 - amount = 0 then greedyLeftover ds cs
        else greedyLeftover ds ((c.1, c.2 - amount) :: cs)
      else
        greedyLeftover ((d.1, d.2 - amount) :: ds) cs
termination_by ds cs => ds.length + cs.length
decreasing_by all_goals (simp [List.length]; try omega)

/-- `buildSettlementPlan` of `settlement.ts`. -/
def buildSettlementPlan (balances : List RoundedBalance) : List SettlementEntry :=
  greedyLoop (debtorsOf balances) (creditorsOf balances)

/-- Total amount a participant pays out in a plan (sum over entries whose
`from` is the participant). -/
def sentBy (plan : List SettlementEntry) (id : String) : ℚ :=
  (plan.map (fun e => if e.1 = id then e.amount else 0)).sum

/-- Total amount a participant receives in a plan (sum over entries whose
`to` is the participant). -/
def recvBy (plan : List SettlementEntry) (id : String) : ℚ :=
  (plan.map (fun e => if e.2 = id then e.amount else 0)).sum

/-- Per-id total remaining amount in a cursor list. -/
def idSum (l : List (String × ℚ)) (id : String) : ℚ :=
  (l.map (fun p => if p.1 = id then p.2 else 0)).sum

theorem sentBy_nil (id : String) : sentBy [] id = 0 := rfl

theorem sentBy_cons (e : SettlementEntry) (rest : List SettlementEntry) (id : String) :
    sentBy (e :: rest) id = (if e.1 = id then e.amount else 0) + sentBy rest id := rfl

theorem recvBy_nil (id : String) : recvBy [] id = 0 := rfl

theorem recvBy_cons (e : SettlementEntry) (rest : List SettlementEntry) (id : String) :
    recvBy (e :: rest) id = (if e.2 = id then e.amount else 0) + recvBy rest id := rfl

theorem idSum_nil (id : String) : idSum [] id = 0 := rfl

theorem idSum_cons (p : String × ℚ) (l : List (String × ℚ)) (id : String) :
    idSum (p :: l) id = (if p.1 = id then p.2 else 0) + idSum l id := rfl

/-- A list of strictly positive amounts with zero total is empty. -/
theorem eq_nil_of_pos_of_sum_eq_zero (l : List (String × ℚ))
    (hpos : ∀ p ∈ l, 0 < p.2) (hsum : (l.map Prod.snd).sum = 0) : l = [] := by
  cases l with
  | nil => rfl
  | cons p rest =>
      exfalso
      have hrest : 0 ≤ (rest.map Prod.snd).sum := by
        apply List.sum_nonneg
        intro x hx
        obtain ⟨q, hq, rfl⟩ := List.mem_map.mp hx
        exact le_of_lt (hpos q (List.mem_cons_of_mem _ hq))
      have hp : 0 < p.2 := hpos p (List.mem_cons_self _ _)
      simp only [List.map_cons, List.sum_cons] at hsum
      linarith


theorem greedyLoop_nil_right (D : List (String × ℚ)) : greedyLoop D [] = [] := by
  cases D <;> rw [greedyLoop]

theorem greedyLoop_eq_both (d c : String × ℚ) (ds cs : List (String × ℚ))
    (hle : d.2 ≤ c.2) (heq : c.2 - min d.2 c.2 = 0) :
    greedyLoop (d :: ds) (c :: cs) =
      (if 0 < min d.2 c.2 then [SettlementEntry.mk d.1 c.1 (min d.2 c.2)] else [])
        ++ greedyLoop ds cs := by
  rw [greedyLoop]
  simp only [if_pos hle, if_pos heq]

theorem greedyLoop_eq_debtor (d c : String × ℚ) (ds cs : List (String × ℚ))
    (hle : d.2 ≤ c.2) (hne : c.2 - min d.2 c.2 ≠ 0) :
    greedyLoop (d :: ds) (c :: cs) =
      (if 0 < min d.2 c.2 then [SettlementEntry.mk d.1 c.1 (min d.2 c.2)] else [])
        ++ greedyLoop ds ((c.1, c.2 - min d.2 c.2) :: cs) := by
  rw [greedyLoop]
  simp only [if_pos hle, if_neg hne]

theorem greedyLoop_eq_creditor (d c : String × ℚ) (ds cs : List (String × ℚ))
    (hlt : ¬ d.2 ≤ c.2) :
    greedyLoop (d :: ds) (c :: cs) =
      (if 0 < min d.2 c.2 then [SettlementEntry.mk d.1 c.1 (min d.2 c.2)] else [])
        ++ greedyLoop ((d.1, d.2 - min d.2 c.2) :: ds) cs := by
  rw [greedyLoop]
  simp only [if_neg hlt]

/-- Every emitted amount is strictly positive (the `if (amount > 0)` guard
before `settlements.push`). -/
theorem greedyLoop_amount_pos (D C : List (String × ℚ)) :
    ∀ e ∈ greedyLoop D C, 0 < e.amount := by
  induction D, C using greedyLoop.induct with
  | case1 cs => simp [greedyLoop]
  | case2 d ds => simp [greedyLoop]
  | case3 d ds c cs amt hle heq ih =>
      intro e he
      rw [greedyLoop_eq_both d c ds cs hle heq] at he
      rcases List.mem_append.mp he with h | h
      · rcases List.mem_ite_nil_right.mp h with ⟨hpos, h⟩
        rcases List.mem_singleton.mp h with rfl
        exact hpos
      · exact ih e h
  | case4 d ds c cs amt hle heq ih =>
      intro e he
      rw [greedyLoop_eq_debtor d c ds cs hle heq] at he
      rcases List.mem_append.mp he with h | h
      · rcases List.mem_ite_nil_right.mp h with ⟨hpos, h⟩
        rcases List.mem_singleton.mp h with rfl
        exact hpos
      · exact ih e h
  | case5 d ds c cs amt hlt ih =>
      intro e he
      rw [greedyLoop_eq_creditor d c ds cs hlt] at he
      rcases List.mem_append.mp he with h | h
      · rcases List.mem_ite_nil_right.mp h with ⟨hpos, h⟩
        rcases List.mem_singleton.mp h with rfl
        exact hpos
      · exact ih e h

/-- Every emitted `from` id is a debtor id and every emitted `to` id a
creditor id. -/
theorem greedyLoop_ids_mem (D C : List (String × ℚ)) :
    ∀ e ∈ greedyLoop D C, e.1 ∈ D.map Prod.fst ∧ e.2 ∈ C.map Prod.fst := by
  induction D, C using greedyLoop.induct with
  | case1 cs => simp [greedyLoop]
  | case2 d ds => simp [greedyLoop]
  | case3 d ds c cs amt hle heq ih =>
      intro e he
      rw [greedyLoop_eq_both d c ds cs hle heq] at he
      rcases List.mem_append.mp he with h | h
      · rcases List.mem_ite_nil_right.mp h with ⟨_, h⟩
        rcases List.mem_singleton.mp h with rfl
        simp
      · obtain ⟨h1, h2⟩ := ih e h
        exact ⟨List.mem_cons_of_mem _ h1, List.mem_cons_of_mem _ h2⟩
  | case4 d ds c cs amt hle heq ih =>
      intro e he
      rw [greedyLoop_eq_debtor d c ds cs hle heq] at he
      rcases List.mem_append.mp he with h | h
      · rcases List.mem_ite_nil_right.mp h with ⟨_, h⟩
        rcases List.mem_singleton.mp h with rfl
        simp
      · obtain ⟨h1, h2⟩ := ih e h
        refine ⟨List.mem_cons_of_mem _ h1, ?_⟩
        simpa using h2
  | case5 d ds c cs amt hlt ih =>
      intro e he
      rw [greedyLoop_eq_creditor d c ds cs hlt] at he
      rcases List.mem_append.mp he with h | h
      · rcases List.mem_ite_nil_right.mp h with ⟨_, h⟩
        rcases List.mem_singleton.mp h with rfl
        simp
      · obtain ⟨h1, h2⟩ := ih e h
        refine ⟨?_, List.mem_cons_of_mem _ h2⟩
        simpa using h1

/-- Core accounting of the greedy loop: with strictly positive amounts on
both sides and equal totals, every debtor sends exactly their amount and
every creditor receives exactly theirs. -/
theorem greedyLoop_exhausts (id : String) : ∀ D C : List (String × ℚ),
    (∀ p ∈ D, 0 < p.2) → (∀ p ∈ C, 0 < p.2) →
    (D.map Prod.snd).sum = (C.map Prod.snd).sum →
    sentBy (greedyLoop D C) id = idSum D id ∧
      recvBy (greedyLoop D C) id = idSum C id := by
  intro D C
  induction D, C using greedyLoop.induct with
  | case1 cs =>
      intro _ hC hsum
      have hnil : cs = [] := eq_nil_of_pos_of_sum_eq_zero cs hC (by simpa using hsum.symm)
      subst hnil
      simp [greedyLoop, sentBy, recvBy, idSum]
  | case2 d ds =>
      intro hD _ hsum
      have hnil : d :: ds = [] := eq_nil_of_pos_of_sum_eq_zero _ hD (by simpa using hsum)
      simp at hnil
  | case3 d ds c cs amt hle heq ih =>
      intro hD hC hsum
      have hmin : min d.2 c.2 = d.2 := min_eq_left hle
      have heq' : c.2 - min d.2 c.2 = 0 := heq
      have hceq : c.2 = d.2 := by rw [hmin] at heq'; linarith
      have hdpos : 0 < d.2 := hD d (List.mem_cons_self _ _)
      have hsum' : (ds.map Prod.snd).sum = (cs.map Prod.snd).sum := by
        simp only [List.map_cons, List.sum_cons] at hsum; linarith
      obtain ⟨ihs, ihr⟩ := ih (fun p hp => hD p (List.mem_cons_of_mem _ hp))
        (fun p hp => hC p (List.mem_cons_of_mem _ hp)) hsum'
      rw [greedyLoop_eq_both d c ds cs hle heq',
        if_pos (show 0 < min d.2 c.2 by rw [hmin]; exact hdpos),
        List.singleton_append]
      constructor
      · rw [sentBy_cons, idSum_cons, ihs, hmin]
      · rw [recvBy_cons, idSum_cons, ihr, hmin]
        by_cases hc : c.1 = id <;> simp [hc, hceq]
  | case4 d ds c cs amt hle heq ih =>
      intro hD hC hsum
      have hmin : min d.2 c.2 = d.2 := min_eq_left hle
      have heq' : c.2 - min d.2 c.2 ≠ 0 := heq
      rw [hmin] at heq'
      have hlt : d.2 < c.2 := lt_of_le_of_ne hle (fun h => heq' (by rw [h]; ring))
      have hdpos : 0 < d.2 := hD d (List.mem_cons_self _ _)
      have hC' : ∀ p ∈ (c.1, c.2 - min d.2 c.2) :: cs, 0 < p.2 := by
        intro p hp
        rcases List.mem_cons.mp hp with rfl | hp
        · rw [hmin]; simpa using hlt
        · exact hC p (List.mem_cons_of_mem _ hp)
      have hsum' : (ds.map Prod.snd).sum =
          (((c.1, c.2 - min d.2 c.2) :: cs).map Prod.snd).sum := by
        simp only [List.map_cons, List.sum_cons, hmin] at hsum ⊢; linarith
      obtain ⟨ihs, ihr⟩ := ih (fun p hp => hD p (List.mem_cons_of_mem _ hp)) hC' hsum'
      rw [greedyLoop_eq_debtor d c ds cs hle (by rw [hmin]; exact heq'),
        if_pos (show 0 < min d.2 c.2 by rw [hmin]; exact hdpos),
        List.singleton_append]
      constructor
      · rw [sentBy_cons, idSum_cons, ihs, hmin]
      · rw [recvBy_cons, idSum_cons, ihr, idSum_cons, hmin]
        by_cases hc : c.1 = id <;> simp [hc, show amt = d.2 from hmin] <;> ring
  | case5 d ds c cs amt hlts ih =>
      intro hD hC hsum
      have hlt : c.2 < d.2 := lt_of_not_le hlts
      have hmin : min d.2 c.2 = c.2 := min_eq_right (le_of_lt hlt)
      have hcpos : 0 < c.2 := hC c (List.mem_cons_self _ _)
      have hD' : ∀ p ∈ (d.1, d.2 - min d.2 c.2) :: ds, 0 < p.2 := by
        intro p hp
        rcases List.mem_cons.mp hp with rfl | hp
        · rw [hmin]; simpa using hlt
        · exact hD p (List.mem_cons_of_mem _ hp)
      have hsum' : (((d.1, d.2 - min d.2 c.2) :: ds).map Prod.snd).sum =
          (cs.map Prod.snd).sum := by
        simp only [List.map_cons, List.sum_cons, hmin] at hsum ⊢; linarith
      obtain ⟨ihs, ihr⟩ := ih hD' (fun p hp => hC p (List.mem_cons_of_mem _ hp)) hsum'
      rw [greedyLoop_eq_creditor d c ds cs hlts,
        if_pos (show 0 < min d.2 c.2 by rw [hmin]; exact hcpos),
        List.singleton_append]
      constructor
      · rw [sentBy_cons, idSum_cons, ihs, idSum_cons, hmin]
        by_cases hd : d.1 = id <;> simp [hd, show amt = c.2 from hmin] <;> ring
      · rw [recvBy_cons, idSum_cons, ihr, hmin]

theorem greedyLeftover_eq_both (d c : String × ℚ) (ds cs : List (String × ℚ))
    (hle : d.2 ≤ c.2) (heq : c.2 - min d.2 c.2 = 0) :
    greedyLeftover (d :: ds) (c :: cs) = greedyLeftover ds cs := by
  rw [greedyLeftover]
  simp only [if_pos hle, if_pos heq]

theorem greedyLeftover_eq_debtor (d c : String × ℚ) (ds cs : List (String × ℚ))
    (hle : d.2 ≤ c.2) (hne : c.2 - min d.2 c.2 ≠ 0) :
    greedyLeftover (d :: ds) (c :: cs) =
      greedyLeftover ds ((c.1, c.2 - min d.2 c.2) :: cs) := by
  rw [greedyLeftover]
  simp only [if_pos hle, if_neg hne]

theorem greedyLeftover_eq_creditor (d c : String × ℚ) (ds cs : List (String × ℚ))
    (hlt : ¬ d.2 ≤ c.2) :
    greedyLeftover (d :: ds) (c :: cs) =
      greedyLeftover ((d.1, d.2 - min d.2 c.2) :: ds) cs := by
  rw [greedyLeftover]
  simp only [if_neg hlt]

/-- The loop always stops with at least one side exhausted. -/
theorem greedyLeftover_one_nil (D C : List (String × ℚ)) :
    (greedyLeftover D C).1 = [] ∨ (greedyLeftover D C).2 = [] := by
  induction D, C using greedyLeftover.induct with
  | case1 cs => simp [greedyLeftover]
  | case2 d ds => simp [greedyLeftover]
  | case3 d ds c cs amt hle heq ih =>
      rw [greedyLeftover_eq_both d c ds cs hle heq]; exact ih
  | case4 d ds c cs amt hle heq ih =>
      rw [greedyLeftover_eq_debtor d c ds cs hle heq]; exact ih
  | case5 d ds c cs amt hlt ih =>
      rw [greedyLeftover_eq_creditor d c ds cs hlt]; exact ih

/-- With strictly positive amounts and equal totals the loop exhausts both
sides. -/
theorem greedyLeftover_both_nil : ∀ D C : List (String × ℚ),
    (∀ p ∈ D, 0 < p.2) → (∀ p ∈ C, 0 < p.2) →
    (D.map Prod.snd).sum = (C.map Prod.snd).sum →
    greedyLeftover D C = ([], []) := by
  intro D C
  induction D, C using greedyLeftover.induct with
  | case1 cs =>
      intro _ hC hsum
      have hnil : cs = [] := eq_nil_of_pos_of_sum_eq_zero cs hC (by simpa using hsum.symm)
      subst hnil
      rw [greedyLeftover]
  | case2 d ds =>
      intro hD _ hsum
      have hnil : d :: ds = [] := eq_nil_of_pos_of_sum_eq_zero _ hD (by simpa using hsum)
      simp at hnil
  | case3 d ds c cs amt hle heq ih =>
      intro hD hC hsum
      have hmin : min d.2 c.2 = d.2 := min_eq_left hle
      have heq' : c.2 - min d.2 c.2 = 0 := heq
      have hceq : c.2 = d.2 := by rw [hmin] at heq'; linarith
      rw [greedyLeftover_eq_both d c ds cs hle heq']
      refine ih (fun p hp => hD p (List.mem_cons_of_mem _ hp))
        (fun p hp => hC p (List.mem_cons_of_mem _ hp)) ?_
      simp only [List.map_cons, List.sum_cons] at hsum; linarith
  | case4 d ds c cs amt hle heq ih =>
      intro hD hC hsum
      have hmin : min d.2 c.2 = d.2 := min_eq_left hle
      have heq' : c.2 - min d.2 c.2 ≠ 0 := heq
      have hlt : d.2 < c.2 := by
        rw [hmin] at heq'
        exact lt_of_le_of_ne hle (fun h => heq' (by rw [h]; ring))
      rw [greedyLeftover_eq_debtor d c ds cs hle heq']
      have hC' : ∀ p ∈ (c.1, c.2 - min d.2 c.2) :: cs, 0 < p.2 := by
        intro p hp
        rcases List.mem_cons.mp hp with rfl | hp
        · rw [hmin]; simpa using hlt
        · exact hC p (List.mem_cons_of_mem _ hp)
      have hsum' : (ds.map Prod.snd).sum =
          (((c.1, c.2 - min d.2 c.2) :: cs).map Prod.snd).sum := by
        simp only [List.map_cons, List.sum_cons, hmin] at hsum ⊢; linarith
      exact ih (fun p hp => hD p (List.mem_cons_of_mem _ hp)) hC' hsum'
  | case5 d ds c cs amt hlts ih =>
      intro hD hC hsum
      have hlt : c.2 < d.2 := lt_of_not_le hlts
      have hmin : min d.2 c.2 = c.2 := min_eq_right (le_of_lt hlt)
      rw [greedyLeftover_eq_creditor d c ds cs hlts]
      have hD' : ∀ p ∈ (d.1, d.2 - min d.2 c.2) :: ds, 0 < p.2 := by
        intro p hp
        rcases List.mem_cons.mp hp with rfl | hp
        · rw [hmin]; simpa using hlt
        · exact hD p (List.mem_cons_of_mem _ hp)
      have hsum' : (((d.1, d.2 - min d.2 c.2) :: ds).map Prod.snd).sum =
          (cs.map Prod.snd).sum := by
        simp only [List.map_cons, List.sum_cons, hmin] at hsum ⊢; linarith
      exact ih hD' (fun p hp => hC p (List.mem_cons_of_mem _ hp)) hsum'

/-- Total transferred amount: with non-negative amounts on both sides the
loop moves exactly the smaller of the two totals. -/
theorem greedyLoop_total : ∀ D C : List (String × ℚ),
    (∀ p ∈ D, 0 ≤ p.2) → (∀ p ∈ C, 0 ≤ p.2) →
    ((greedyLoop D C).map (fun e => e.amount)).sum =
      min (D.map Prod.snd).sum (C.map Prod.snd).sum := by
  intro D C
  induction D, C using greedyLoop.induct with
  | case1 cs =>
      intro _ hC
      have : 0 ≤ (cs.map Prod.snd).sum := by
        apply List.sum_nonneg
        intro x hx
        obtain ⟨q, hq, rfl⟩ := List.mem_map.mp hx
        exact hC q hq
      simp [greedyLoop, min_eq_left this]
  | case2 d ds =>
      intro hD _
      have h0 : 0 ≤ ((d :: ds).map Prod.snd).sum := by
        apply List.sum_nonneg
        intro x hx
        obtain ⟨q, hq, rfl⟩ := List.mem_map.mp hx
        exact hD q hq
      rw [greedyLoop_nil_right]
      simp only [List.map_nil, List.sum_nil]
      rw [min_eq_right h0]
  | case3 d ds c cs amt hle heq ih =>
      intro hD hC
      have hmin : min d.2 c.2 = d.2 := min_eq_left hle
      have heq' : c.2 - min d.2 c.2 = 0 := heq
      have hceq : c.2 = d.2 := by rw [hmin] at heq'; linarith
      have hd0 : 0 ≤ d.2 := hD d (List.mem_cons_self _ _)
      have irec := ih (fun p hp => hD p (List.mem_cons_of_mem _ hp))
        (fun p hp => hC p (List.mem_cons_of_mem _ hp))
      rw [greedyLoop_eq_both d c ds cs hle heq']
      rw [List.map_append, List.sum_append, irec]
      have hemit : ((if 0 < min d.2 c.2
          then [SettlementEntry.mk d.1 c.1 (min d.2 c.2)] else []).map
            (fun e => e.amount)).sum = d.2 := by
        rw [hmin]
        by_cases hp : 0 < d.2
        · simp [hp]
        · have h0 : d.2 = 0 := le_antisymm (le_of_not_lt hp) hd0
          simp [hp, h0]
      rw [hemit]
      simp only [List.map_cons, List.sum_cons, hceq]
      rw [← min_add_add_left]
  | case4 d ds c cs amt hle heq ih =>
      intro hD hC
      have hmin : min d.2 c.2 = d.2 := min_eq_left hle
      have heq' : c.2 - min d.2 c.2 ≠ 0 := heq
      have hd0 : 0 ≤ d.2 := hD d (List.mem_cons_self _ _)
      have hC' : ∀ p ∈ (c.1, c.2 - min d.2 c.2) :: cs, 0 ≤ p.2 := by
        intro p hp
        rcases List.mem_cons.mp hp with rfl | hp
        · rw [hmin]; simp; linarith
        · exact hC p (List.mem_cons_of_mem _ hp)
      have irec := ih (fun p hp => hD p (List.mem_cons_of_mem _ hp)) hC'
      rw [greedyLoop_eq_debtor d c ds cs hle heq']
      rw [List.map_append, List.sum_append, irec]
      have hemit : ((if 0 < min d.2 c.2
          then [SettlementEntry.mk d.1 c.1 (min d.2 c.2)] else []).map
            (fun e => e.amount)).sum = d.2 := by
        rw [hmin]
        by_cases hp : 0 < d.2
        · simp [hp]
        · have h0 : d.2 = 0 := le_antisymm (le_of_not_lt hp) hd0
          simp [hp, h0]
      rw [hemit]
      simp only [List.map_cons, List.sum_cons, hmin]
      rw [← min_add_add_left]
      have hamt : amt = d.2 := hmin
      congr 1
      rw [hamt]; ring
  | case5 d ds c cs amt hlts ih =>
      intro hD hC
      have hlt : c.2 < d.2 := lt_of_not_le hlts
      have hmin : min d.2 c.2 = c.2 := min_eq_right (le_of_lt hlt)
      have hc0 : 0 ≤ c.2 := hC c (List.mem_cons_self _ _)
      have hD' : ∀ p ∈ (d.1, d.2 - min d.2 c.2) :: ds, 0 ≤ p.2 := by
        intro p hp
        rcases List.mem_cons.mp hp with rfl | hp
        · rw [hmin]; simp; linarith
        · exact hD p (List.mem_cons_of_mem _ hp)
      have irec := ih hD' (fun p hp => hC p (List.mem_cons_of_mem _ hp))
      rw [greedyLoop_eq_creditor d c ds cs hlts]
      rw [List.map_append, List.sum_append, irec]
      have hemit : ((if 0 < min d.2 c.2
          then [SettlementEntry.mk d.1 c.1 (min d.2 c.2)] else []).map
            (fun e => e.amount)).sum = c.2 := by
        rw [hmin]
        by_cases hp : 0 < c.2
        · simp [hp]
        · have h0 : c.2 = 0 := le_antisymm (le_of_not_lt hp) hc0
          simp [hp, h0]
      rw [hemit]
      simp only [List.map_cons, List.sum_cons, hmin]
      rw [← min_add_add_left]
      have hamt : amt = c.2 := hmin
      congr 1
      rw [hamt]; ring

theorem emitted_length_le_one (P : Prop) [Decidable P] (x : SettlementEntry) :
    (if P then [x] else []).length ≤ 1 := by
  split <;> simp

/-- Iteration bound: with both cursor lists non-empty, the loop emits
strictly fewer entries than the two list lengths combined. -/
theorem greedyLoop_length : ∀ D C : List (String × ℚ), D ≠ [] → C ≠ [] →
    (greedyLoop D C).length + 1 ≤ D.length + C.length := by
  intro D C
  induction D, C using greedyLoop.induct with
  | case1 cs => intro h _; exact absurd rfl h
  | case2 d ds => intro _ h; exact absurd rfl h
  | case3 d ds c cs amt hle heq ih =>
      intro _ _
      rw [greedyLoop_eq_both d c ds cs hle heq]
      rw [List.length_append]
      have hemit := emitted_length_le_one (0 < min d.2 c.2)
        (SettlementEntry.mk d.1 c.1 (min d.2 c.2))
      by_cases hds : ds = []
      · subst hds
        simp only [greedyLoop]
        simp only [List.length_nil, List.length_cons]
        omega
      · by_cases hcs : cs = []
        · subst hcs
          rw [greedyLoop_nil_right]
          simp only [List.length_nil, List.length_cons]
          omega
        · have := ih hds hcs
          simp only [List.length_cons]
          omega
  | case4 d ds c cs amt hle heq ih =>
      intro _ _
      rw [greedyLoop_eq_debtor d c ds cs hle heq]
      rw [List.length_append]
      have hemit := emitted_length_le_one (0 < min d.2 c.2)
        (SettlementEntry.mk d.1 c.1 (min d.2 c.2))
      by_cases hds : ds = []
      · subst hds
        simp only [greedyLoop]
        simp only [List.length_nil, List.length_cons]
        omega
      · have h2 : (greedyLoop ds ((c.1, c.2 - min d.2 c.2) :: cs)).length + 1
            ≤ ds.length + ((c.1, c.2 - min d.2 c.2) :: cs).length :=
          ih hds (List.cons_ne_nil _ _)
        simp only [List.length_cons] at h2 ⊢
        omega
  | case5 d ds c cs amt hlts ih =>
      intro _ _
      rw [greedyLoop_eq_creditor d c ds cs hlts]
      rw [List.length_append]
      have hemit := emitted_length_le_one (0 < min d.2 c.2)
        (SettlementEntry.mk d.1 c.1 (min d.2 c.2))
      by_cases hcs : cs = []
      · subst hcs
        rw [greedyLoop_nil_right]
        simp only [List.length_nil, List.length_cons]
        omega
      · have h2 : (greedyLoop ((d.1, d.2 - min d.2 c.2) :: ds) cs).length + 1
            ≤ ((d.1, d.2 - min d.2 c.2) :: ds).length + cs.length :=
          ih (List.cons_ne_nil _ _) hcs
        simp only [List.length_cons] at h2 ⊢
        omega

/-! ## Partition lemmas -/

theorem creditorsOf_cons (b : RoundedBalance) (bs : List RoundedBalance) :
    creditorsOf (b :: bs) =
      (if 0 < b.roundedDiff then [(b.participant.id, b.roundedDiff)] else [])
        ++ creditorsOf bs := by
  simp only [creditorsOf, List.filter_cons]
  split <;> simp_all

theorem debtorsOf_cons (b : RoundedBalance) (bs : List RoundedBalance) :
    debtorsOf (b :: bs) =
      (if b.roundedDiff < 0 then [(b.participant.id, |b.roundedDiff|)] else [])
        ++ debtorsOf bs := by
  simp only [debtorsOf, List.filter_cons]
  split <;> simp_all

theorem creditorsOf_pos (bs : List RoundedBalance) :
    ∀ p ∈ creditorsOf bs, 0 < p.2 := by
  intro p hp
  simp only [creditorsOf, List.mem_map, List.mem_filter, decide_eq_true_eq] at hp
  obtain ⟨b, ⟨_, hpos⟩, rfl⟩ := hp
  exact hpos

theorem debtorsOf_pos (bs : List RoundedBalance) :
    ∀ p ∈ debtorsOf bs, 0 < p.2 := by
  intro p hp
  simp only [debtorsOf, List.mem_map, List.mem_filter, decide_eq_true_eq] at hp
  obtain ⟨b, ⟨_, hneg⟩, rfl⟩ := hp
  exact abs_pos.mpr (ne_of_lt hneg)

/-- The net rounded balance of one participant id. -/
def idBalance (bs : List RoundedBalance) (id : String) : ℚ :=
  (bs.map (fun b => if b.participant.id = id then b.roundedDiff else 0)).sum

/-- Whole-list splitting of the zero-sum hypothesis over the partition. -/
theorem sum_eq_creditors_sub_debtors (bs : List RoundedBalance) :
    (bs.map (fun b => b.roundedDiff)).sum =
      ((creditorsOf bs).map Prod.snd).sum - ((debtorsOf bs).map Prod.snd).sum := by
  induction bs with
  | nil => simp [creditorsOf, debtorsOf]
  | cons b bs ih =>
      rw [creditorsOf_cons, debtorsOf_cons]
      simp only [List.map_cons, List.sum_cons, List.map_append, List.sum_append]
      rcases lt_trichotomy b.roundedDiff 0 with h | h | h
      · rw [if_neg (by linarith), if_pos h]
        simp only [List.map_cons, List.map_nil, List.sum_cons, List.sum_nil,
          List.nil_append]
        rw [ih, abs_of_neg h]
        ring
      · rw [if_neg (by simp [h]), if_neg (by simp [h])]
        simp only [List.nil_append, h, ih]
        ring
      · rw [if_pos h, if_neg (by linarith)]
        simp only [List.map_cons, List.map_nil, List.sum_cons, List.sum_nil,
          List.nil_append]
        rw [ih]
        ring

/-- Per-id splitting over the partition. -/
theorem idBalance_eq_idSum (bs : List RoundedBalance) (id : String) :
    idBalance bs id = idSum (creditorsOf bs) id - idSum (debtorsOf bs) id := by
  induction bs with
  | nil => simp [idBalance, creditorsOf, debtorsOf, idSum]
  | cons b bs ih =>
      rw [creditorsOf_cons, debtorsOf_cons]
      simp only [idBalance, List.map_cons, List.sum_cons] at ih ⊢
      rcases lt_trichotomy b.roundedDiff 0 with h | h | h
      · rw [if_neg (show ¬ 0 < b.roundedDiff by linarith), if_pos h]
        simp only [List.nil_append, List.singleton_append, idSum_cons]
        rw [ih, abs_of_neg h]
        by_cases hid : b.participant.id = id <;> simp [hid] <;> ring
      · rw [if_neg (show ¬ 0 < b.roundedDiff by simp [h]),
          if_neg (show ¬ b.roundedDiff < 0 by simp [h])]
        simp only [List.nil_append]
        simp [h, ih]
      · rw [if_pos h, if_neg (show ¬ b.roundedDiff < 0 by linarith)]
        simp only [List.nil_append, List.singleton_append, idSum_cons]
        rw [ih]
        by_cases hid : b.participant.id = id <;> simp [hid] <;> ring


/-! ## Claim theorems for the settlement planner

`mkRB` builds the concrete fixture balances used by witnesses and
counterexamples. -/

/-- A fixture balance: participant named by its id, zero paid/shouldPay,
and the given value as both `diff` and `roundedDiff`. -/
def mkRB (id : String) (d : ℚ) : RoundedBalance := ⟨⟨⟨id, id⟩, 0, 0, d⟩, d⟩

/-- C1 counterexample: the claim applies each entry by SUBTRACTING its
amount from the `from` participant's balance and ADDING it to the `to`
participant's balance.  On the zero-sum input `[a ↦ -100, b ↦ +100]` the
emitted plan is `[a → b : 100]`, and that application leaves `a` at
`-200`, not `0`. -/
theorem c1_claim_counterexample :
    (([mkRB "a" (-100), mkRB "b" 100].map (fun b => b.roundedDiff)).sum = 0) ∧
    ¬ (idBalance [mkRB "a" (-100), mkRB "b" 100] "a"
      - sentBy (buildSettlementPlan [mkRB "a" (-100), mkRB "b" 100]) "a"
      + recvBy (buildSettlementPlan [mkRB "a" (-100), mkRB "b" 100]) "a"
      = 0) := by
  constructor
  · norm_num [mkRB]
  · have hplan : buildSettlementPlan [mkRB "a" (-100), mkRB "b" 100]
        = [SettlementEntry.mk "a" "b" 100] := by
      norm_num [buildSettlementPlan, debtorsOf, creditorsOf, mkRB, List.filter_cons,
        greedyLoop, min_def]
    rw [hplan]
    norm_num [idBalance, sentBy, recvBy, mkRB,
      show ¬ ("b" : String) = "a" by decide]

/-- C1 (amended): for every balance list whose `roundedDiff` values sum to
zero, applying all entries of `buildSettlementPlan` with each entry's
amount ADDED to the `from` participant's balance and SUBTRACTED from the
`to` participant's balance leaves every participant's net balance exactly
0, and the greedy loop fully exhausts both the debtor and the creditor
lists. -/
theorem c1_settlement_correctness (bs : List RoundedBalance)
    (hsum : (bs.map (fun b => b.roundedDiff)).sum = 0) :
    (∀ id : String,
      idBalance bs id + sentBy (buildSettlementPlan bs) id
        - recvBy (buildSettlementPlan bs) id = 0) ∧
    greedyLeftover (debtorsOf bs) (creditorsOf bs) = ([], []) := by
  have hD := debtorsOf_pos bs
  have hC := creditorsOf_pos bs
  have hsums : ((debtorsOf bs).map Prod.snd).sum
      = ((creditorsOf bs).map Prod.snd).sum := by
    have hsplit := sum_eq_creditors_sub_debtors bs
    rw [hsum] at hsplit
    linarith
  constructor
  · intro id
    obtain ⟨hs, hr⟩ := greedyLoop_exhausts id (debtorsOf bs) (creditorsOf bs) hD hC hsums
    rw [buildSettlementPlan, hs, hr, idBalance_eq_idSum]
    ring
  · exact greedyLeftover_both_nil _ _ hD hC hsums

/-- C1 witness: the amended statement evaluated on the concrete zero-sum
input `[a ↦ -100, b ↦ +100]`, at participant `a`. -/
theorem c1_settlement_correctness_witness :
    (idBalance [mkRB "a" (-100), mkRB "b" 100] "a"
      + sentBy (buildSettlementPlan [mkRB "a" (-100), mkRB "b" 100]) "a"
      - recvBy (buildSettlementPlan [mkRB "a" (-100), mkRB "b" 100]) "a"
      = 0) ∧
    greedyLeftover (debtorsOf [mkRB "a" (-100), mkRB "b" 100])
      (creditorsOf [mkRB "a" (-100), mkRB "b" 100]) = ([], []) :=
  ⟨(c1_settlement_correctness _ (by norm_num [mkRB])).1 "a",
    (c1_settlement_correctness _ (by norm_num [mkRB])).2⟩

/-- C4: when at least one balance has a nonzero `roundedDiff`, the number
of entries emitted by `buildSettlementPlan` is at most
(number of positive balances) + (number of negative balances) - 1. -/
theorem c4_transfer_count_bound (bs : List RoundedBalance)
    (h : ∃ b ∈ bs, b.roundedDiff ≠ 0) :
    ((buildSettlementPlan bs).length : ℤ) ≤
      (bs.countP (fun b => decide (0 < b.roundedDiff)) : ℤ)
        + (bs.countP (fun b => decide (b.roundedDiff < 0)) : ℤ) - 1 := by
  have hclen : (creditorsOf bs).length = bs.countP (fun b => decide (0 < b.roundedDiff)) := by
    rw [creditorsOf, List.length_map, List.countP_eq_length_filter]
  have hdlen : (debtorsOf bs).length = bs.countP (fun b => decide (b.roundedDiff < 0)) := by
    rw [debtorsOf, List.length_map, List.countP_eq_length_filter]
  rw [← hclen, ← hdlen]
  by_cases hd : debtorsOf bs = []
  · rw [buildSettlementPlan, hd, greedyLoop]
    obtain ⟨b, hb, hne⟩ := h
    rcases lt_or_gt_of_ne hne with hneg | hpos
    · exfalso
      have : (b.participant.id, |b.roundedDiff|) ∈ debtorsOf bs := by
        simp only [debtorsOf, List.mem_map, List.mem_filter, decide_eq_true_eq]
        exact ⟨b, ⟨hb, hneg⟩, rfl⟩
      rw [hd] at this
      simp at this
    · have : (b.participant.id, b.roundedDiff) ∈ creditorsOf bs := by
        simp only [creditorsOf, List.mem_map, List.mem_filter, decide_eq_true_eq]
        exact ⟨b, ⟨hb, hpos⟩, rfl⟩
      have hlen : 1 ≤ (creditorsOf bs).length := by
        cases hcs : creditorsOf bs with
        | nil => rw [hcs] at this; simp at this
        | cons x xs => simp
      simp only [List.length_nil]
      omega
  · by_cases hc : creditorsOf bs = []
    · rw [buildSettlementPlan, hc, greedyLoop_nil_right]
      obtain ⟨b, hb, hne⟩ := h
      have hlen : 1 ≤ (debtorsOf bs).length := by
        cases hds : debtorsOf bs with
        | nil => exact absurd hds hd
        | cons x xs => simp
      simp only [List.length_nil]
      omega
    · have := greedyLoop_length (debtorsOf bs) (creditorsOf bs) hd hc
      rw [buildSettlementPlan]
      omega

/-- C4 witness: two nonzero balances produce one transfer, and
`1 ≤ 1 + 1 - 1`. -/
theorem c4_transfer_count_bound_witness :
    ((buildSettlementPlan [mkRB "a" (-100), mkRB "b" 100]).length : ℤ) ≤
      ([mkRB "a" (-100), mkRB "b" 100].countP (fun b => decide (0 < b.roundedDiff)) : ℤ)
        + ([mkRB "a" (-100), mkRB "b" 100].countP (fun b => decide (b.roundedDiff < 0)) : ℤ)
        - 1 :=
  c4_transfer_count_bound _ ⟨mkRB "b" 100, by norm_num [mkRB]⟩

/-- C5 counterexample: the claim quantifies over every input balance
list, but on a list that repeats the participant id `a` on both sides
(`[a ↦ +100, a ↦ -100]`) the emitted entry pays `a` to itself. -/
theorem c5_claim_counterexample :
    ¬ (∀ e ∈ buildSettlementPlan [mkRB "a" 100, mkRB "a" (-100)],
        e.«from» ≠ e.«to») := by
  have hplan : buildSettlementPlan [mkRB "a" 100, mkRB "a" (-100)]
      = [SettlementEntry.mk "a" "a" 100] := by
    norm_num [buildSettlementPlan, debtorsOf, creditorsOf, mkRB, List.filter_cons,
      greedyLoop, min_def]
  rw [hplan]
  intro h
  exact h (SettlementEntry.mk "a" "a" 100) (List.mem_singleton_self _) rfl

/-- C5 (amended): for every input balance list with pairwise distinct
participant ids, no emitted entry has `from = to`, and every emitted entry
has a strictly positive amount. -/
theorem c5_no_self_payment (bs : List RoundedBalance)
    (hnd : (bs.map (fun b => b.participant.id)).Nodup) :
    ∀ e ∈ buildSettlementPlan bs, e.«from» ≠ e.«to» ∧ 0 < e.amount := by
  intro e he
  rw [buildSettlementPlan] at he
  refine ⟨?_, greedyLoop_amount_pos _ _ e he⟩
  obtain ⟨hf, ht⟩ := greedyLoop_ids_mem _ _ e he
  intro heq
  simp only [debtorsOf, List.map_map, List.mem_map, List.mem_filter,
    decide_eq_true_eq, Function.comp] at hf
  simp only [creditorsOf, List.map_map, List.mem_map, List.mem_filter,
    decide_eq_true_eq, Function.comp] at ht
  obtain ⟨b, ⟨hbmem, hbneg⟩, hbid⟩ := hf
  obtain ⟨b', ⟨hbmem', hbpos⟩, hbid'⟩ := ht
  have hids : b.participant.id = b'.participant.id := by
    rw [hbid, hbid', heq]
  have hbb : b = b' := List.inj_on_of_nodup_map hnd hbmem hbmem' hids
  rw [hbb] at hbneg
  linarith

/-- C5 witness: on the distinct-ids input `[a ↦ -100, b ↦ +100]` the plan
contains the entry `a → b : 100`, whose endpoints differ and whose amount
is positive. -/
theorem c5_no_self_payment_witness :
    ("a" : String) ≠ "b" ∧ (0 : ℚ) < 100 :=
  c5_no_self_payment [mkRB "a" (-100), mkRB "b" 100] (by decide)
    (SettlementEntry.mk "a" "b" 100)
    (by norm_num [buildSettlementPlan, debtorsOf, creditorsOf, mkRB,
      List.filter_cons, greedyLoop, min_def])

/-- C9: on an input whose debtor and creditor totals differ, the loop
stops with one side exhausted and the total emitted amount equals the
smaller of the two totals. -/
theorem c9_unbalanced_truncation (bs : List RoundedBalance)
    (hne : ((debtorsOf bs).map Prod.snd).sum ≠ ((creditorsOf bs).map Prod.snd).sum) :
    ((buildSettlementPlan bs).map (fun e => e.amount)).sum =
      min ((debtorsOf bs).map Prod.snd).sum ((creditorsOf bs).map Prod.snd).sum ∧
    ((greedyLeftover (debtorsOf bs) (creditorsOf bs)).1 = [] ∨
      (greedyLeftover (debtorsOf bs) (creditorsOf bs)).2 = []) := by
  refine ⟨?_, greedyLeftover_one_nil _ _⟩
  rw [buildSettlementPlan]
  exact greedyLoop_total _ _
    (fun p hp => le_of_lt (debtorsOf_pos bs p hp))
    (fun p hp => le_of_lt (creditorsOf_pos bs p hp))

/-- C9 witness: with balances `[a ↦ -100, b ↦ +300]` the totals are 100
and 300; the emitted total is `min 100 300` and the debtor side is
exhausted. -/
theorem c9_unbalanced_truncation_witness :
    ((buildSettlementPlan [mkRB "a" (-100), mkRB "b" 300]).map (fun e => e.amount)).sum =
      min ((debtorsOf [mkRB "a" (-100), mkRB "b" 300]).map Prod.snd).sum
        ((creditorsOf [mkRB "a" (-100), mkRB "b" 300]).map Prod.snd).sum ∧
    ((greedyLeftover (debtorsOf [mkRB "a" (-100), mkRB "b" 300])
        (creditorsOf [mkRB "a" (-100), mkRB "b" 300])).1 = [] ∨
      (greedyLeftover (debtorsOf [mkRB "a" (-100), mkRB "b" 300])
        (creditorsOf [mkRB "a" (-100), mkRB "b" 300])).2 = []) :=
  c9_unbalanced_truncation _
    (by norm_num [debtorsOf, creditorsOf, mkRB, List.filter_cons])

/-! ## Rounding normalizer lemmas -/

theorem subtractAt_toCalc (t : ℚ) : ∀ (j : ℕ) (l : List RoundedBalance),
    (subtractAt t j l).map (fun b => b.toCalculatedBalance)
      = l.map (fun b => b.toCalculatedBalance) := by
  intro j l
  induction l generalizing j with
  | nil => cases j <;> rfl
  | cons b bs ih =>
      cases j with
      | zero => simp [subtractAt]
      | succ n => simp [subtractAt, ih n]

theorem subtractAt_length (t : ℚ) : ∀ (j : ℕ) (l : List RoundedBalance),
    (subtractAt t j l).length = l.length := by
  intro j l
  induction l generalizing j with
  | nil => cases j <;> rfl
  | cons b bs ih =>
      cases j with
      | zero => simp [subtractAt]
      | succ n => simp [subtractAt, ih n]

theorem subtractAt_map_rd (t : ℚ) : ∀ (l : List RoundedBalance) (j : ℕ)
    (hj : j < l.length),
    (subtractAt t j l).map (fun b => b.roundedDiff)
      = (l.map (fun b => b.roundedDiff)).set j
          ((l.get ⟨j, hj⟩).roundedDiff - t) := by
  intro l
  induction l with
  | nil => intro j hj; simp at hj
  | cons b bs ih =>
      intro j hj
      cases j with
      | zero => simp [subtractAt]
      | succ n =>
          simp only [subtractAt, List.map_cons, List.get_cons_succ]
          rw [ih n (by simpa using hj)]
          rfl

theorem subtractAt_sum (t : ℚ) : ∀ (l : List RoundedBalance) (j : ℕ), j < l.length →
    ((subtractAt t j l).map (fun b => b.roundedDiff)).sum
      = (l.map (fun b => b.roundedDiff)).sum - t := by
  intro l
  induction l with
  | nil => intro j hj; simp at hj
  | cons b bs ih =>
      intro j hj
      cases j with
      | zero => simp [subtractAt]; ring
      | succ n =>
          simp only [subtractAt, List.map_cons, List.sum_cons]
          rw [ih n (by simpa using hj)]
          ring

/-- The spec's selection rule: `j` indexes the largest value, ties broken
by the first maximum encountered in list order (every earlier element is
strictly smaller, every element is at most the value at `j`). -/
def IsFirstMax (l : List ℚ) (j : ℕ) : Prop :=
  ∃ hj : j < l.length,
    (∀ i, ∀ hi : i < l.length, l.get ⟨i, hi⟩ ≤ l.get ⟨j, hj⟩) ∧
    (∀ i, ∀ hi : i < l.length, i < j → l.get ⟨i, hi⟩ < l.get ⟨j, hj⟩)

/-- The mirror selection rule: first minimum encountered. -/
def IsFirstMin (l : List ℚ) (j : ℕ) : Prop :=
  ∃ hj : j < l.length,
    (∀ i, ∀ hi : i < l.length, l.get ⟨j, hj⟩ ≤ l.get ⟨i, hi⟩) ∧
    (∀ i, ∀ hi : i < l.length, i < j → l.get ⟨j, hj⟩ < l.get ⟨i, hi⟩)

theorem reduceMaxAux_spec : ∀ (xs : List ℚ) (best : ℕ × ℚ) (i : ℕ),
    (reduceMaxAux best i xs = best ∧ ∀ x ∈ xs, x ≤ best.2) ∨
    (∃ k, ∃ hk : k < xs.length,
      (reduceMaxAux best i xs).1 = i + k ∧
      (reduceMaxAux best i xs).2 = xs.get ⟨k, hk⟩ ∧
      best.2 < (reduceMaxAux best i xs).2 ∧
      (∀ m, ∀ hm : m < xs.length, m < k → xs.get ⟨m, hm⟩ < (reduceMaxAux best i xs).2) ∧
      (∀ x ∈ xs, x ≤ (reduceMaxAux best i xs).2)) := by
  intro xs
  induction xs with
  | nil =>
      intro best i
      left
      exact ⟨rfl, by simp⟩
  | cons x xs ih =>
      intro best i
      rw [reduceMaxAux]
      by_cases hx : x > best.2
      · rw [if_pos hx]
        rcases ih (i, x) (i + 1) with ⟨heq, hall⟩ | ⟨k, hk, h1, h2, h3, h4, h5⟩
        · right
          refine ⟨0, by simp, ?_, ?_, ?_, ?_, ?_⟩
          · rw [heq]; simp
          · rw [heq]; simp
          · rw [heq]; exact hx
          · intro m hm hmk; omega
          · intro y hy
            rcases List.mem_cons.mp hy with rfl | hy
            · rw [heq]
            · rw [heq]; exact hall y hy
        · right
          refine ⟨k + 1, by simpa using Nat.succ_lt_succ hk, ?_, ?_, ?_, ?_, ?_⟩
          · rw [h1]; omega
          · rw [h2]; simp
          · exact lt_trans hx h3
          · intro m hm hmk
            cases m with
            | zero => simpa using h3
            | succ m' =>
                have hm' : m' < xs.length := by simpa using hm
                have := h4 m' hm' (by omega)
                simpa using this
          · intro y hy
            rcases List.mem_cons.mp hy with rfl | hy
            · exact le_of_lt h3
            · exact h5 y hy
      · rw [if_neg hx]
        push_neg at hx
        rcases ih best (i + 1) with ⟨heq, hall⟩ | ⟨k, hk, h1, h2, h3, h4, h5⟩
        · left
          refine ⟨heq, ?_⟩
          intro y hy
          rcases List.mem_cons.mp hy with rfl | hy
          · exact hx
          · exact hall y hy
        · right
          refine ⟨k + 1, by simpa using Nat.succ_lt_succ hk, ?_, ?_, ?_, ?_, ?_⟩
          · rw [h1]; omega
          · rw [h2]; simp
          · exact h3
          · intro m hm hmk
            cases m with
            | zero => simpa using lt_of_le_of_lt hx h3
            | succ m' =>
                have hm' : m' < xs.length := by simpa using hm
                have := h4 m' hm' (by omega)
                simpa using this
          · intro y hy
            rcases List.mem_cons.mp hy with rfl | hy
            · exact le_of_lt (lt_of_le_of_lt hx h3)
            · exact h5 y hy

theorem firstMaxIdx_spec (l : List ℚ) (hne : l ≠ []) :
    IsFirstMax l (firstMaxIdx l) := by
  cases l with
  | nil => exact absurd rfl hne
  | cons x xs =>
      rw [firstMaxIdx]
      rcases reduceMaxAux_spec xs (0, x) 1 with ⟨heq, hall⟩ | ⟨k, hk, h1, h2, h3, h4, h5⟩
      · rw [heq]
        refine ⟨by simp, ?_, ?_⟩
        · intro i hi
          cases i with
          | zero => simp
          | succ i' =>
              have hi' : i' < xs.length := by simpa using hi
              simpa using hall (xs.get ⟨i', hi'⟩) (List.get_mem xs _ _)
        · intro i hi hlt
          omega
      · rw [h1]
        have hj : 1 + k < (x :: xs).length := by simp; omega
        refine ⟨hj, ?_, ?_⟩
        · have hget : (x :: xs).get ⟨1 + k, hj⟩ = xs.get ⟨k, hk⟩ := by
            have : 1 + k = k + 1 := by omega
            simp [this]
          intro i hi
          rw [hget, ← h2]
          cases i with
          | zero => simpa using le_of_lt h3
          | succ i' =>
              have hi' : i' < xs.length := by simpa using hi
              simpa using h5 (xs.get ⟨i', hi'⟩) (List.get_mem xs _ _)
        · have hget : (x :: xs).get ⟨1 + k, hj⟩ = xs.get ⟨k, hk⟩ := by
            have : 1 + k = k + 1 := by omega
            simp [this]
          intro i hi hlt
          rw [hget, ← h2]
          cases i with
          | zero => simpa using h3
          | succ i' =>
              have hi' : i' < xs.length := by simpa using hi
              have := h4 i' hi' (by omega)
              simpa using this

theorem reduceMinAux_spec : ∀ (xs : List ℚ) (best : ℕ × ℚ) (i : ℕ),
    (reduceMinAux best i xs = best ∧ ∀ x ∈ xs, best.2 ≤ x) ∨
    (∃ k, ∃ hk : k < xs.length,
      (reduceMinAux best i xs).1 = i + k ∧
      (reduceMinAux best i xs).2 = xs.get ⟨k, hk⟩ ∧
      (reduceMinAux best i xs).2 < best.2 ∧
      (∀ m, ∀ hm : m < xs.length, m < k → (reduceMinAux best i xs).2 < xs.get ⟨m, hm⟩) ∧
      (∀ x ∈ xs, (reduceMinAux best i xs).2 ≤ x)) := by
  intro xs
  induction xs with
  | nil =>
      intro best i
      left
      exact ⟨rfl, by simp⟩
  | cons x xs ih =>
      intro best i
      rw [reduceMinAux]
      by_cases hx : x < best.2
      · rw [if_pos hx]
        rcases ih (i, x) (i + 1) with ⟨heq, hall⟩ | ⟨k, hk, h1, h2, h3, h4, h5⟩
        · right
          refine ⟨0, by simp, ?_, ?_, ?_, ?_, ?_⟩
          · rw [heq]; simp
          · rw [heq]; simp
          · rw [heq]; exact hx
          · intro m hm hmk; omega
          · intro y hy
            rcases List.mem_cons.mp hy with rfl | hy
            · rw [heq]
            · rw [heq]; exact hall y hy
        · right
          refine ⟨k + 1, by simpa using Nat.succ_lt_succ hk, ?_, ?_, ?_, ?_, ?_⟩
          · rw [h1]; omega
          · rw [h2]; simp
          · exact lt_trans h3 hx
          · intro m hm hmk
            cases m with
            | zero => simpa using h3
            | succ m' =>
                have hm' : m' < xs.length := by simpa using hm
                have := h4 m' hm' (by omega)
                simpa using this
          · intro y hy
            rcases List.mem_cons.mp hy with rfl | hy
            · exact le_of_lt h3
            · exact h5 y hy
      · rw [if_neg hx]
        push_neg at hx
        rcases ih best (i + 1) with ⟨heq, hall⟩ | ⟨k, hk, h1, h2, h3, h4, h5⟩
        · left
          refine ⟨heq, ?_⟩
          intro y hy
          rcases List.mem_cons.mp hy with rfl | hy
          · exact hx
          · exact hall y hy
        · right
          refine ⟨k + 1, by simpa using Nat.succ_lt_succ hk, ?_, ?_, ?_, ?_, ?_⟩
          · rw [h1]; omega
          · rw [h2]; simp
          · exact h3
          · intro m hm hmk
            cases m with
            | zero => simpa using lt_of_lt_of_le h3 hx
            | succ m' =>
                have hm' : m' < xs.length := by simpa using hm
                have := h4 m' hm' (by omega)
                simpa using this
          · intro y hy
            rcases List.mem_cons.mp hy with rfl | hy
            · exact le_of_lt (lt_of_lt_of_le h3 hx)
            · exact h5 y hy

theorem firstMinIdx_spec (l : List ℚ) (hne : l ≠ []) :
    IsFirstMin l (firstMinIdx l) := by
  cases l with
  | nil => exact absurd rfl hne
  | cons x xs =>
      rw [firstMinIdx]
      rcases reduceMinAux_spec xs (0, x) 1 with ⟨heq, hall⟩ | ⟨k, hk, h1, h2, h3, h4, h5⟩
      · rw [heq]
        refine ⟨by simp, ?_, ?_⟩
        · intro i hi
          cases i with
          | zero => simp
          | succ i' =>
              have hi' : i' < xs.length := by simpa using hi
              simpa using hall (xs.get ⟨i', hi'⟩) (List.get_mem xs _ _)
        · intro i hi hlt
          omega
      · rw [h1]
        have hj : 1 + k < (x :: xs).length := by simp; omega
        refine ⟨hj, ?_, ?_⟩
        · have hget : (x :: xs).get ⟨1 + k, hj⟩ = xs.get ⟨k, hk⟩ := by
            have : 1 + k = k + 1 := by omega
            simp [this]
          intro i hi
          rw [hget, ← h2]
          cases i with
          | zero => simpa using le_of_lt h3
          | succ i' =>
              have hi' : i' < xs.length := by simpa using hi
              simpa using h5 (xs.get ⟨i', hi'⟩) (List.get_mem xs _ _)
        · have hget : (x :: xs).get ⟨1 + k, hj⟩ = xs.get ⟨k, hk⟩ := by
            have : 1 + k = k + 1 := by omega
            simp [this]
          intro i hi hlt
          rw [hget, ← h2]
          cases i with
          | zero => simpa using h3
          | succ i' =>
              have hi' : i' < xs.length := by simpa using hi
              have := h4 i' hi' (by omega)
              simpa using this

theorem roundedList_map_rd (bs : List CalculatedBalance) (unit : ℚ) :
    ((bs.map (fun b =>
        ({ b with roundedDiff := roundToUnit b.diff unit } : RoundedBalance))).map
      (fun b => b.roundedDiff)) = bs.map (fun b => roundToUnit b.diff unit) := by
  rw [List.map_map]; rfl

theorem roundedList_map_toCalc (bs : List CalculatedBalance) (unit : ℚ) :
    ((bs.map (fun b =>
        ({ b with roundedDiff := roundToUnit b.diff unit } : RoundedBalance))).map
      (fun b => b.toCalculatedBalance)) = bs := by
  rw [List.map_map]
  have hcomp : ((fun b : RoundedBalance => b.toCalculatedBalance) ∘ (fun b =>
      ({ b with roundedDiff := roundToUnit b.diff unit } : RoundedBalance)))
      = fun b : CalculatedBalance => b := rfl
  rw [hcomp, List.map_id_fun']
  rfl

theorem set_get_self : ∀ (l : List ℚ) (j : ℕ) (hj : j < l.length),
    l.set j (l.get ⟨j, hj⟩) = l := by
  intro l
  induction l with
  | nil => intro j hj; simp at hj
  | cons x xs ih =>
      intro j hj
      cases j with
      | zero => rfl
      | succ n =>
          have := ih n (by simpa using hj)
          simp only [List.get_cons_succ, List.set]
          rw [this]

set_option maxHeartbeats 1600000 in
/-- Shape of `roundBalancesToUnit`: the rounded diffs are the naive
per-balance roundings with the whole drift subtracted at exactly one
position, which is the first maximum when the drift is positive and the
first minimum when it is negative.  (With zero drift the subtraction is by
0 and any position serves.) -/
theorem roundBalancesToUnit_spec (bs : List CalculatedBalance) (unit : ℚ)
    (hne : bs ≠ []) :
    ∃ j, ∃ hj : j < (bs.map (fun b => roundToUnit b.diff unit)).length,
      ((roundBalancesToUnit bs unit).map (fun b => b.roundedDiff)
        = (bs.map (fun b => roundToUnit b.diff unit)).set j
            ((bs.map (fun b => roundToUnit b.diff unit)).get ⟨j, hj⟩
              - (bs.map (fun b => roundToUnit b.diff unit)).sum)) ∧
      (0 < (bs.map (fun b => roundToUnit b.diff unit)).sum →
        IsFirstMax (bs.map (fun b => roundToUnit b.diff unit)) j) ∧
      ((bs.map (fun b => roundToUnit b.diff unit)).sum < 0 →
        IsFirstMin (bs.map (fun b => roundToUnit b.diff unit)) j) := by
  have hlenbs : 0 < bs.length := List.length_pos.mpr hne
  have hlen : 0 < (bs.map (fun b => roundToUnit b.diff unit)).length := by
    rw [List.length_map]; exact hlenbs
  have hlenR : 0 < (bs.map (fun b =>
      ({ b with roundedDiff := roundToUnit b.diff unit } : RoundedBalance))).length := by
    rw [List.length_map]; exact hlenbs
  have hNne : (bs.map (fun b => roundToUnit b.diff unit)) ≠ [] := by
    intro h; rw [h] at hlen; simp at hlen
  have hget : ∀ (j : ℕ) (hj : j < bs.length),
      (((bs.map (fun b =>
          ({ b with roundedDiff := roundToUnit b.diff unit } : RoundedBalance))).get
        ⟨j, by simpa using hj⟩).roundedDiff)
        = (bs.map (fun b => roundToUnit b.diff unit)).get ⟨j, by simpa using hj⟩ := by
    intro j hj
    simp [List.get_map]
  simp only [roundBalancesToUnit, roundedList_map_rd]
  by_cases ht : (bs.map (fun b => roundToUnit b.diff unit)).sum = 0
  · rw [if_neg (fun h => h.1 ht)]
    refine ⟨0, hlen, ?_, ?_, ?_⟩
    · rw [roundedList_map_rd, ht, sub_zero, set_get_self]
    · intro h; rw [ht] at h; exact absurd h (lt_irrefl 0)
    · intro h; rw [ht] at h; exact absurd h (lt_irrefl 0)
  · rw [if_pos ⟨ht, hlenR⟩]
    by_cases hpos : (bs.map (fun b => roundToUnit b.diff unit)).sum > 0
    · rw [if_pos hpos]
      obtain ⟨hj, hmax1, hmax2⟩ := firstMaxIdx_spec _ hNne
      refine ⟨firstMaxIdx (bs.map (fun b => roundToUnit b.diff unit)), hj, ?_,
        fun _ => firstMaxIdx_spec _ hNne, ?_⟩
      · rw [subtractAt_map_rd _ _ _ (by rw [List.length_map]; simpa using hj),
          roundedList_map_rd, hget _ (by simpa using hj)]
      · intro h; exact absurd h (not_lt_of_gt hpos)
    · rw [if_neg hpos]
      have hneg : (bs.map (fun b => roundToUnit b.diff unit)).sum < 0 :=
        lt_of_le_of_ne (le_of_not_lt hpos) ht
      obtain ⟨hj, hmin1, hmin2⟩ := firstMinIdx_spec _ hNne
      refine ⟨firstMinIdx (bs.map (fun b => roundToUnit b.diff unit)), hj, ?_, ?_,
        fun _ => firstMinIdx_spec _ hNne⟩
      · rw [subtractAt_map_rd _ _ _ (by rw [List.length_map]; simpa using hj),
          roundedList_map_rd, hget _ (by simpa using hj)]
      · intro h; exact absurd h (not_lt_of_gt hneg)

/-- A fixture calculated balance: zero paid/shouldPay and the given
`diff`. -/
def mkCB (id : String) (d : ℚ) : CalculatedBalance := ⟨⟨id, id⟩, 0, 0, d⟩

theorem sum_set_get (l : List ℚ) : ∀ (j : ℕ) (hj : j < l.length) (v : ℚ),
    (l.set j v).sum = l.sum - l.get ⟨j, hj⟩ + v := by
  induction l with
  | nil => intro j hj; simp at hj
  | cons x xs ih =>
      intro j hj v
      cases j with
      | zero => simp [List.set]; ring
      | succ n =>
          simp only [List.set, List.sum_cons, List.get_cons_succ]
          rw [ih n (by simpa using hj)]
          ring

set_option maxHeartbeats 1600000 in
theorem roundBalancesToUnit_toCalc (bs : List CalculatedBalance) (unit : ℚ) :
    (roundBalancesToUnit bs unit).map (fun b => b.toCalculatedBalance) = bs := by
  simp only [roundBalancesToUnit]
  split_ifs with h1 h2
  · rw [subtractAt_toCalc, roundedList_map_toCalc]
  · rw [subtractAt_toCalc, roundedList_map_toCalc]
  · rw [roundedList_map_toCalc]

set_option maxHeartbeats 1600000 in
theorem roundBalancesToUnit_length (bs : List CalculatedBalance) (unit : ℚ) :
    (roundBalancesToUnit bs unit).length = bs.length := by
  simp only [roundBalancesToUnit]
  split_ifs with h1 h2
  · rw [subtractAt_length, List.length_map]
  · rw [subtractAt_length, List.length_map]
  · rw [List.length_map]

/-- C10: `roundBalancesToUnit` keeps length, order and every
`CalculatedBalance` field of its input; only the added `roundedDiff`
differs, and at every position except at most one it equals
`round(diff / unit) * unit`. -/
theorem c10_frame (bs : List CalculatedBalance) (unit : ℚ) :
    ((roundBalancesToUnit bs unit).map (fun b => b.toCalculatedBalance) = bs) ∧
    (roundBalancesToUnit bs unit).length = bs.length ∧
    ∃ j : ℕ, ∀ i : ℕ, i ≠ j →
      ((roundBalancesToUnit bs unit).map (fun b => b.roundedDiff)).get? i
        = (bs.map (fun b => roundToUnit b.diff unit)).get? i := by
  refine ⟨roundBalancesToUnit_toCalc bs unit, roundBalancesToUnit_length bs unit, ?_⟩
  by_cases hbs : bs = []
  · subst hbs
    refine ⟨0, ?_⟩
    intro i _
    have hnil : roundBalancesToUnit [] unit = [] := by
      have := roundBalancesToUnit_length [] unit
      exact List.length_eq_zero.mp (by simpa using this)
    rw [hnil]
    simp
  · obtain ⟨j, hj, hset, _, _⟩ := roundBalancesToUnit_spec bs unit hbs
    refine ⟨j, ?_⟩
    intro i hij
    rw [hset]
    exact List.get?_set_ne _ _ (fun h => hij h.symm)

/-- C2: for every non-empty balance list and positive integer unit, the
returned `roundedDiff` values sum to exactly 0, and they are the naive
roundings `round(diff/unit)*unit` except that exactly one position has the
total naive drift subtracted (a subtraction by 0 when there is no
drift). -/
theorem c2_rounding_closure (bs : List CalculatedBalance) (hne : bs ≠ [])
    (u : ℤ) (hu : 0 < u) :
    ((roundBalancesToUnit bs (u : ℚ)).map (fun b => b.roundedDiff)).sum = 0 ∧
    ∃ j, ∃ hj : j < (bs.map (fun b => roundToUnit b.diff (u : ℚ))).length,
      (roundBalancesToUnit bs (u : ℚ)).map (fun b => b.roundedDiff)
        = (bs.map (fun b => roundToUnit b.diff (u : ℚ))).set j
            ((bs.map (fun b => roundToUnit b.diff (u : ℚ))).get ⟨j, hj⟩
              - (bs.map (fun b => roundToUnit b.diff (u : ℚ))).sum) := by
  obtain ⟨j, hj, hset, _, _⟩ := roundBalancesToUnit_spec bs (u : ℚ) hne
  refine ⟨?_, j, hj, hset⟩
  rw [hset, sum_set_get _ j hj]
  ring

/-- C2 witness: the scenario `diffs +50, -30, -20` with `unit = 100`. -/
theorem c2_rounding_closure_witness :
    ((roundBalancesToUnit [mkCB "a" 50, mkCB "b" (-30), mkCB "c" (-20)]
        ((100 : ℤ) : ℚ)).map (fun b => b.roundedDiff)).sum = 0 :=
  (c2_rounding_closure [mkCB "a" 50, mkCB "b" (-30), mkCB "c" (-20)]
    (List.cons_ne_nil _ _) 100 (by decide)).1

/-- C7: when the naive rounded sum is positive the drift is subtracted
from the entry selected as the first maximum `roundedDiff` in list order,
when it is negative from the first minimum, and no other entry is
adjusted. -/
theorem c7_drift_target (bs : List CalculatedBalance) (unit : ℚ) :
    (0 < (bs.map (fun b => roundToUnit b.diff unit)).sum →
      ∃ j, ∃ hj : j < (bs.map (fun b => roundToUnit b.diff unit)).length,
        IsFirstMax (bs.map (fun b => roundToUnit b.diff unit)) j ∧
        (roundBalancesToUnit bs unit).map (fun b => b.roundedDiff)
          = (bs.map (fun b => roundToUnit b.diff unit)).set j
              ((bs.map (fun b => roundToUnit b.diff unit)).get ⟨j, hj⟩
                - (bs.map (fun b => roundToUnit b.diff unit)).sum)) ∧
    ((bs.map (fun b => roundToUnit b.diff unit)).sum < 0 →
      ∃ j, ∃ hj : j < (bs.map (fun b => roundToUnit b.diff unit)).length,
        IsFirstMin (bs.map (fun b => roundToUnit b.diff unit)) j ∧
        (roundBalancesToUnit bs unit).map (fun b => b.roundedDiff)
          = (bs.map (fun b => roundToUnit b.diff unit)).set j
              ((bs.map (fun b => roundToUnit b.diff unit)).get ⟨j, hj⟩
                - (bs.map (fun b => roundToUnit b.diff unit)).sum)) := by
  constructor
  · intro hpos
    have hbs : bs ≠ [] := by
      intro h
      subst h
      simp at hpos
    obtain ⟨j, hj, hset, hmax, _⟩ := roundBalancesToUnit_spec bs unit hbs
    exact ⟨j, hj, hmax hpos, hset⟩
  · intro hneg
    have hbs : bs ≠ [] := by
      intro h
      subst h
      simp at hneg
    obtain ⟨j, hj, hset, _, hmin⟩ := roundBalancesToUnit_spec bs unit hbs
    exact ⟨j, hj, hmin hneg, hset⟩

/-- C7 witness: drift `+100` on `[diff 50]` targets the first maximum;
drift `-100` on `[diff -60]` targets the first minimum. -/
theorem c7_drift_target_witness :
    (∃ j, ∃ hj : j < ([mkCB "a" 50].map (fun b => roundToUnit b.diff (100 : ℚ))).length,
      IsFirstMax ([mkCB "a" 50].map (fun b => roundToUnit b.diff (100 : ℚ))) j ∧
      (roundBalancesToUnit [mkCB "a" 50] (100 : ℚ)).map (fun b => b.roundedDiff)
        = ([mkCB "a" 50].map (fun b => roundToUnit b.diff (100 : ℚ))).set j
            (([mkCB "a" 50].map (fun b => roundToUnit b.diff (100 : ℚ))).get ⟨j, hj⟩
              - ([mkCB "a" 50].map (fun b => roundToUnit b.diff (100 : ℚ))).sum)) ∧
    (∃ j, ∃ hj : j < ([mkCB "a" (-60)].map (fun b => roundToUnit b.diff (100 : ℚ))).length,
      IsFirstMin ([mkCB "a" (-60)].map (fun b => roundToUnit b.diff (100 : ℚ))) j ∧
      (roundBalancesToUnit [mkCB "a" (-60)] (100 : ℚ)).map (fun b => b.roundedDiff)
        = ([mkCB "a" (-60)].map (fun b => roundToUnit b.diff (100 : ℚ))).set j
            (([mkCB "a" (-60)].map (fun b => roundToUnit b.diff (100 : ℚ))).get ⟨j, hj⟩
              - ([mkCB "a" (-60)].map (fun b => roundToUnit b.diff (100 : ℚ))).sum)) :=
  ⟨(c7_drift_target [mkCB "a" 50] 100).1
      (by norm_num [mkCB, roundToUnit, jsRound]),
    (c7_drift_target [mkCB "a" (-60)] 100).2
      (by norm_num [mkCB, roundToUnit, jsRound])⟩

/-! ## Balance calculator lemmas -/

/-- Spec-side total: sum of the amounts of positive expenses paid by a
given participant id. -/
def paidSum (es : List Expense) (id : String) : ℚ :=
  (es.map (fun e => if 0 < e.amount ∧ e.payerId = id then e.amount else 0)).sum

/-- Spec-side total of one share list for a given participant id. -/
def shareSum (ss : List ExpenseShare) (id : String) : ℚ :=
  (ss.map (fun s => if s.participantId = id then s.amount else 0)).sum

/-- Spec-side total owed by a participant id across positive expenses. -/
def owedSum (es : List Expense) (id : String) : ℚ :=
  (es.map (fun e => if 0 < e.amount then shareSum e.shares id else 0)).sum

theorem mapSet_append (k : String) (v : LedgerEntry) :
    ∀ acc : List (String × LedgerEntry), (∀ kv ∈ acc, kv.1 ≠ k) →
    mapSet k v acc = acc ++ [(k, v)] := by
  intro acc
  induction acc with
  | nil => intro _; rfl
  | cons kv rest ih =>
      intro h
      rw [mapSet]
      rw [if_neg (h kv (List.mem_cons_self _ _))]
      rw [ih (fun kv hkv => h kv (List.mem_cons_of_mem _ hkv))]
      rfl

theorem foldl_mapSet (ps : List Participant) :
    ∀ acc : List (String × LedgerEntry),
    (∀ p ∈ ps, ∀ kv ∈ acc, kv.1 ≠ p.id) → (ps.map (fun p => p.id)).Nodup →
    ps.foldl (fun led p => mapSet p.id ⟨p, 0, 0⟩ led) acc
      = acc ++ ps.map (fun p => (p.id, (⟨p, 0, 0⟩ : LedgerEntry))) := by
  induction ps with
  | nil => intro acc _ _; simp
  | cons p ps ih =>
      intro acc hdisj hnd
      rw [List.foldl_cons]
      rw [mapSet_append p.id _ acc (fun kv hkv => hdisj p (List.mem_cons_self _ _) kv hkv)]
      rw [List.map_cons, List.nodup_cons] at hnd
      have hdisj' : ∀ q ∈ ps, ∀ kv ∈ acc ++ [(p.id, (⟨p, 0, 0⟩ : LedgerEntry))], kv.1 ≠ q.id := by
        intro q hq kv hkv
        rcases List.mem_append.mp hkv with hkv | hkv
        · exact hdisj q (List.mem_cons_of_mem _ hq) kv hkv
        · rcases List.mem_singleton.mp hkv with rfl
          intro hcontra
          have hpq : p.id = q.id := hcontra
          exact hnd.1 (by rw [hpq]; exact List.mem_map_of_mem (fun p => p.id) hq)
      rw [ih _ hdisj' hnd.2]
      simp

/-- Seed ledger: in insertion order, one zero entry per participant. -/
theorem ledger0_eq (ps : List Participant) (hnd : (ps.map (fun p => p.id)).Nodup) :
    ps.foldl (fun led p => mapSet p.id ⟨p, 0, 0⟩ led) []
      = ps.map (fun p => (p.id, (⟨p, 0, 0⟩ : LedgerEntry))) := by
  rw [foldl_mapSet ps [] (by simp) hnd]
  simp

/-- `mapAdjust` on a ledger shaped over participants with `Nodup` ids is a
pointwise update. -/
theorem mapAdjust_shape (k : String) (f : LedgerEntry → LedgerEntry) :
    ∀ (ps : List Participant), (ps.map (fun p => p.id)).Nodup →
    ∀ F : Participant → LedgerEntry,
    mapAdjust k f (ps.map (fun p => (p.id, F p)))
      = ps.map (fun p => (p.id, if p.id = k then f (F p) else F p)) := by
  intro ps
  induction ps with
  | nil => intro _ F; rfl
  | cons p ps ih =>
      intro hnd F
      rw [List.map_cons, List.nodup_cons] at hnd
      rw [List.map_cons, List.map_cons, mapAdjust]
      by_cases hpk : p.id = k
      · rw [if_pos hpk, if_pos hpk]
        congr 1
        apply List.map_congr_left
        intro q hq
        have hqk : q.id ≠ k := by
          intro hcontra
          have hpq : p.id = q.id := hpk.trans hcontra.symm
          exact hnd.1 (by rw [hpq]; exact List.mem_map_of_mem (fun p => p.id) hq)
        rw [if_neg hqk]
      · rw [if_neg hpk, if_neg hpk]
        rw [ih hnd.2 F]

theorem shape_congr (ps : List Participant) (F G : Participant → LedgerEntry)
    (h : ∀ p ∈ ps, F p = G p) :
    ps.map (fun p => (p.id, F p)) = ps.map (fun p => (p.id, G p)) := by
  apply List.map_congr_left
  intro p hp
  rw [h p hp]

theorem sharesFold_shape (ps : List Participant)
    (hnd : (ps.map (fun p => p.id)).Nodup) :
    ∀ (ss : List ExpenseShare) (F : Participant → LedgerEntry),
    ss.foldl (fun led s => mapAdjust s.participantId
        (fun en => { en with shouldPay := en.shouldPay + s.amount }) led)
      (ps.map (fun p => (p.id, F p)))
    = ps.map (fun p => (p.id,
        { F p with shouldPay := (F p).shouldPay + shareSum ss p.id })) := by
  intro ss
  induction ss with
  | nil =>
      intro F
      rw [List.foldl_nil]
      apply shape_congr
      intro p hp
      simp [shareSum]
  | cons s ss ih =>
      intro F
      rw [List.foldl_cons]
      rw [mapAdjust_shape s.participantId _ ps hnd F]
      rw [ih (fun p => if p.id = s.participantId
          then { F p with shouldPay := (F p).shouldPay + s.amount } else F p)]
      apply shape_congr
      intro p hp
      by_cases hps : p.id = s.participantId
      · simp only [if_pos hps, shareSum, List.map_cons, List.sum_cons,
          if_pos hps.symm]
        simp [shareSum]
        ring
      · have hsp : ¬ s.participantId = p.id := fun h => hps h.symm
        simp [hps, hsp, shareSum]

theorem applyExpense_shape (ps : List Participant)
    (hnd : (ps.map (fun p => p.id)).Nodup) (e : Expense)
    (F : Participant → LedgerEntry) :
    applyExpense (ps.map (fun p => (p.id, F p))) e
      = ps.map (fun p => (p.id,
          { participant := (F p).participant,
            paid := (F p).paid + (if 0 < e.amount ∧ e.payerId = p.id then e.amount else 0),
            shouldPay := (F p).shouldPay
              + (if 0 < e.amount then shareSum e.shares p.id else 0) })) := by
  simp only [applyExpense]
  by_cases ha : e.amount ≤ 0
  · rw [if_pos ha]
    apply shape_congr
    intro p hp
    have hna : ¬ 0 < e.amount := not_lt.mpr ha
    simp [hna]
  · rw [if_neg ha]
    have hpos : 0 < e.amount := lt_of_not_le ha
    rw [mapAdjust_shape e.payerId _ ps hnd F]
    rw [sharesFold_shape ps hnd e.shares (fun p => if p.id = e.payerId
        then { F p with paid := (F p).paid + e.amount } else F p)]
    apply shape_congr
    intro p hp
    by_cases hpp : p.id = e.payerId
    · simp [hpp, hpos]
    · have hep : ¬ e.payerId = p.id := fun h => hpp h.symm
      simp [hpp, hpos, hep]

theorem expensesFold_shape (ps : List Participant)
    (hnd : (ps.map (fun p => p.id)).Nodup) :
    ∀ (es : List Expense) (F : Participant → LedgerEntry),
    es.foldl applyExpense (ps.map (fun p => (p.id, F p)))
      = ps.map (fun p => (p.id,
          { participant := (F p).participant,
            paid := (F p).paid + paidSum es p.id,
            shouldPay := (F p).shouldPay + owedSum es p.id })) := by
  intro es
  induction es with
  | nil =>
      intro F
      rw [List.foldl_nil]
      apply shape_congr
      intro p hp
      simp [paidSum, owedSum]
  | cons e es ih =>
      intro F
      rw [List.foldl_cons, applyExpense_shape ps hnd e F]
      rw [ih (fun p =>
        { participant := (F p).participant,
          paid := (F p).paid + (if 0 < e.amount ∧ e.payerId = p.id then e.amount else 0),
          shouldPay := (F p).shouldPay
            + (if 0 < e.amount then shareSum e.shares p.id else 0) })]
      apply shape_congr
      intro p hp
      simp [paidSum, owedSum]
      constructor <;> ring

/-- Master characterization of `calculateBalances` under distinct
participant ids: one output per participant, in order, with rounded
filtered sums. -/
theorem calculateBalances_eq (ps : List Participant) (es : List Expense)
    (hnd : (ps.map (fun p => p.id)).Nodup) :
    calculateBalances ps es = ps.map (fun p =>
      { participant := p,
        paid := (jsRound (paidSum es p.id) : ℚ),
        shouldPay := (jsRound (owedSum es p.id) : ℚ),
        diff := (jsRound (paidSum es p.id) : ℚ) - (jsRound (owedSum es p.id) : ℚ) }) := by
  simp only [calculateBalances]
  rw [ledger0_eq ps hnd]
  rw [expensesFold_shape ps hnd es (fun p => (⟨p, 0, 0⟩ : LedgerEntry))]
  rw [List.map_map]
  apply List.map_congr_left
  intro p hp
  simp [Function.comp]

/-- A fixture participant whose name is its id. -/
def mkP (id : String) : Participant := ⟨id, id⟩

/-- C3: with distinct participant ids, `calculateBalances` returns exactly
one balance per participant in insertion order, with `paid` the rounded
sum of positive expenses paid by the participant, `shouldPay` the rounded
sum of their share amounts over positive expenses, and
`diff = paid - shouldPay`; a participant referenced by no expense gets the
all-zero balance. -/
theorem c3_balance_calculator (ps : List Participant) (es : List Expense)
    (hnd : (ps.map (fun p => p.id)).Nodup) :
    calculateBalances ps es = ps.map (fun p =>
      { participant := p,
        paid := (jsRound (paidSum es p.id) : ℚ),
        shouldPay := (jsRound (owedSum es p.id) : ℚ),
        diff := (jsRound (paidSum es p.id) : ℚ) - (jsRound (owedSum es p.id) : ℚ) }) ∧
    (∀ p ∈ ps,
      (∀ e ∈ es, e.payerId ≠ p.id ∧ ∀ s ∈ e.shares, s.participantId ≠ p.id) →
      CalculatedBalance.mk p 0 0 0 ∈ calculateBalances ps es) := by
  refine ⟨calculateBalances_eq ps es hnd, ?_⟩
  intro p hp hno
  rw [calculateBalances_eq ps es hnd]
  have hpaid : paidSum es p.id = 0 := by
    rw [paidSum]
    apply List.sum_eq_zero
    intro x hx
    obtain ⟨e, he, rfl⟩ := List.mem_map.mp hx
    rw [if_neg]
    rintro ⟨_, hpe⟩
    exact (hno e he).1 hpe
  have howed : owedSum es p.id = 0 := by
    rw [owedSum]
    apply List.sum_eq_zero
    intro x hx
    obtain ⟨e, he, rfl⟩ := List.mem_map.mp hx
    have hz : shareSum e.shares p.id = 0 := by
      rw [shareSum]
      apply List.sum_eq_zero
      intro y hy
      obtain ⟨sh, hsh, rfl⟩ := List.mem_map.mp hy
      rw [if_neg ((hno e he).2 sh hsh)]
    rw [hz]
    split <;> rfl
  apply List.mem_map.mpr
  refine ⟨p, hp, ?_⟩
  rw [hpaid, howed]
  norm_num [jsRound]

/-- C3 witness: the spec's scenario — A pays 3000, shares 1000 each among
A, B, C. -/
theorem c3_balance_calculator_witness :
    calculateBalances [mkP "A", mkP "B", mkP "C"]
        [Expense.mk "e1" "t" 3000 "A"
          [ExpenseShare.mk "A" 1000, ExpenseShare.mk "B" 1000, ExpenseShare.mk "C" 1000]]
      = [mkP "A", mkP "B", mkP "C"].map (fun p =>
          { participant := p,
            paid := (jsRound (paidSum
              [Expense.mk "e1" "t" 3000 "A"
                [ExpenseShare.mk "A" 1000, ExpenseShare.mk "B" 1000,
                  ExpenseShare.mk "C" 1000]] p.id) : ℚ),
            shouldPay := (jsRound (owedSum
              [Expense.mk "e1" "t" 3000 "A"
                [ExpenseShare.mk "A" 1000, ExpenseShare.mk "B" 1000,
                  ExpenseShare.mk "C" 1000]] p.id) : ℚ),
            diff := (jsRound (paidSum
              [Expense.mk "e1" "t" 3000 "A"
                [ExpenseShare.mk "A" 1000, ExpenseShare.mk "B" 1000,
                  ExpenseShare.mk "C" 1000]] p.id) : ℚ)
              - (jsRound (owedSum
              [Expense.mk "e1" "t" 3000 "A"
                [ExpenseShare.mk "A" 1000, ExpenseShare.mk "B" 1000,
                  ExpenseShare.mk "C" 1000]] p.id) : ℚ) }) :=
  (c3_balance_calculator [mkP "A", mkP "B", mkP "C"] _ (by decide)).1

/-- Modelled from the spec: rounding to the nearest integer with ties
(halves) rounding AWAY FROM ZERO, the rule the claim ascribes to the
finalization step. -/
def roundHalfAwayFromZero (q : ℚ) : ℤ :=
  if 0 ≤ q then ⌊q + 1 / 2⌋ else -⌊-q + 1 / 2⌋

/-- C6 counterexample: with one participant `a` and one expense of amount
5 whose single share gives `a` the amount `-5/2`, the accumulated
`shouldPay` is `-5/2`; the code's `Math.round` finalizes it to `-2`
(ties go towards `+∞`), while the claim's round-half-away-from-zero rule
yields `-3`. -/
theorem c6_claim_counterexample :
    (calculateBalances [mkP "a"]
        [Expense.mk "e" "t" 5 "a" [ExpenseShare.mk "a" (-5/2)]]).map
          (fun b => b.shouldPay)
      ≠ [(roundHalfAwayFromZero
          (owedSum [Expense.mk "e" "t" 5 "a" [ExpenseShare.mk "a" (-5/2)]] "a") : ℚ)] := by
  rw [calculateBalances_eq _ _ (by decide)]
  simp only [List.map_map, List.map_cons, List.map_nil, Function.comp, mkP]
  norm_num [paidSum, owedSum, shareSum, jsRound, roundHalfAwayFromZero]

/-- C6 (amended): the finalization step rounds each participant's
accumulated `paid` and `shouldPay` with JavaScript `Math.round` — nearest
integer with ties (halves) rounding towards `+∞`, i.e. `⌊x + 1/2⌋` — and
then computes `diff = paid - shouldPay`. -/
theorem c6_rounding_rule (ps : List Participant) (es : List Expense)
    (hnd : (ps.map (fun p => p.id)).Nodup) :
    (calculateBalances ps es).map (fun b => b.paid)
        = ps.map (fun p => (jsRound (paidSum es p.id) : ℚ)) ∧
    (calculateBalances ps es).map (fun b => b.shouldPay)
        = ps.map (fun p => (jsRound (owedSum es p.id) : ℚ)) ∧
    (calculateBalances ps es).map (fun b => b.diff)
        = ps.map (fun p =>
            (jsRound (paidSum es p.id) : ℚ) - (jsRound (owedSum es p.id) : ℚ)) := by
  rw [calculateBalances_eq ps es hnd]
  refine ⟨?_, ?_, ?_⟩ <;> rw [List.map_map] <;> rfl

/-- C6 witness: the amended rounding rule on the `-5/2` accumulated
share. -/
theorem c6_rounding_rule_witness :
    (calculateBalances [mkP "a"]
        [Expense.mk "e" "t" 5 "a" [ExpenseShare.mk "a" (-5/2)]]).map (fun b => b.paid)
        = [mkP "a"].map (fun p => (jsRound (paidSum
            [Expense.mk "e" "t" 5 "a" [ExpenseShare.mk "a" (-5/2)]] p.id) : ℚ)) ∧
    (calculateBalances [mkP "a"]
        [Expense.mk "e" "t" 5 "a" [ExpenseShare.mk "a" (-5/2)]]).map (fun b => b.shouldPay)
        = [mkP "a"].map (fun p => (jsRound (owedSum
            [Expense.mk "e" "t" 5 "a" [ExpenseShare.mk "a" (-5/2)]] p.id) : ℚ)) ∧
    (calculateBalances [mkP "a"]
        [Expense.mk "e" "t" 5 "a" [ExpenseShare.mk "a" (-5/2)]]).map (fun b => b.diff)
        = [mkP "a"].map (fun p => (jsRound (paidSum
            [Expense.mk "e" "t" 5 "a" [ExpenseShare.mk "a" (-5/2)]] p.id) : ℚ)
          - (jsRound (owedSum
            [Expense.mk "e" "t" 5 "a" [ExpenseShare.mk "a" (-5/2)]] p.id) : ℚ)) :=
  c6_rounding_rule [mkP "a"] _ (by decide)

/-! ## Graceful degradation lemmas -/

theorem mapAdjust_keys (k : String) (f : LedgerEntry → LedgerEntry) :
    ∀ l : List (String × LedgerEntry),
    (mapAdjust k f l).map Prod.fst = l.map Prod.fst := by
  intro l
  induction l with
  | nil => rfl
  | cons kv rest ih =>
      rw [mapAdjust]
      split_ifs with h
      · simp
      · simp [ih]

theorem mapAdjust_not_mem (k : String) (f : LedgerEntry → LedgerEntry) :
    ∀ l : List (String × LedgerEntry), k ∉ l.map Prod.fst →
    mapAdjust k f l = l := by
  intro l
  induction l with
  | nil => intro _; rfl
  | cons kv rest ih =>
      intro h
      simp only [List.map_cons, List.mem_cons] at h
      push_neg at h
      rw [mapAdjust, if_neg (fun hc => h.1 hc.symm), ih h.2]

theorem sharesFold_keys : ∀ (ss : List ExpenseShare) (l : List (String × LedgerEntry)),
    ((ss.foldl (fun led s => mapAdjust s.participantId
        (fun en => { en with shouldPay := en.shouldPay + s.amount }) led) l).map
      Prod.fst) = l.map Prod.fst := by
  intro ss
  induction ss with
  | nil => intro l; rfl
  | cons s ss ih =>
      intro l
      rw [List.foldl_cons, ih, mapAdjust_keys]

theorem applyExpense_keys (l : List (String × LedgerEntry)) (e : Expense) :
    (applyExpense l e).map Prod.fst = l.map Prod.fst := by
  simp only [applyExpense]
  split_ifs with h
  · rfl
  · rw [sharesFold_keys, mapAdjust_keys]

theorem expensesFold_keys : ∀ (es : List Expense) (l : List (String × LedgerEntry)),
    ((es.foldl applyExpense l).map Prod.fst) = l.map Prod.fst := by
  intro es
  induction es with
  | nil => intro l; rfl
  | cons e es ih =>
      intro l
      rw [List.foldl_cons, ih, applyExpense_keys]

theorem mapSet_keys (k : String) (v : LedgerEntry) :
    ∀ (l : List (String × LedgerEntry)) (x : String),
    x ∈ (mapSet k v l).map Prod.fst → x ∈ l.map Prod.fst ∨ x = k := by
  intro l
  induction l with
  | nil =>
      intro x hx
      simp [mapSet] at hx
      exact Or.inr hx
  | cons kv rest ih =>
      intro x hx
      rw [mapSet] at hx
      split_ifs at hx with h
      · simp only [List.map_cons, List.mem_cons] at hx ⊢
        tauto
      · simp only [List.map_cons, List.mem_cons] at hx ⊢
        rcases hx with hx | hx
        · exact Or.inl (Or.inl hx)
        · rcases ih x hx with hx | hx
          · exact Or.inl (Or.inr hx)
          · exact Or.inr hx

theorem ledger0_keys (ps : List Participant) :
    ∀ (acc : List (String × LedgerEntry)) (x : String),
    x ∈ ((ps.foldl (fun led p => mapSet p.id ⟨p, 0, 0⟩ led) acc).map Prod.fst) →
    x ∈ acc.map Prod.fst ∨ x ∈ ps.map (fun p => p.id) := by
  induction ps with
  | nil => intro acc x hx; exact Or.inl hx
  | cons p ps ih =>
      intro acc x hx
      rw [List.foldl_cons] at hx
      rcases ih _ x hx with hx | hx
      · rcases mapSet_keys p.id _ acc x hx with hx | hx
        · exact Or.inl hx
        · exact Or.inr (by simp [hx])
      · exact Or.inr (List.mem_cons_of_mem _ hx)

/-- Keys of the working ledger after seeding and folding any prefix of
expenses are participant ids. -/
theorem ledger_keys_sub (ps : List Participant) (es : List Expense) (x : String) :
    x ∈ ((es.foldl applyExpense
        (ps.foldl (fun led p => mapSet p.id ⟨p, 0, 0⟩ led) [])).map Prod.fst) →
    x ∈ ps.map (fun p => p.id) := by
  intro hx
  rw [expensesFold_keys] at hx
  rcases ledger0_keys ps [] x hx with hx | hx
  · simp at hx
  · exact hx

theorem applyExpense_nonpos (l : List (String × LedgerEntry)) (e : Expense)
    (h : e.amount ≤ 0) : applyExpense l e = l := by
  simp only [applyExpense]
  rw [if_pos h]

/-- C8: `calculateBalances` degrades gracefully — a non-positive expense
contributes nothing at all; the amount of an expense whose payer id is
unknown is attributed to nobody (the result does not depend on it, while
its shares are still processed); a share referencing an unknown
participant id can be dropped without changing the result; and the
non-finite guard of `roundToUnit` computes the rounding from 0. -/
theorem c8_graceful_degradation (ps : List Participant) (es₁ es₂ : List Expense)
    (e : Expense) (a' : ℚ) (s : ExpenseShare) (ss₁ ss₂ : List ExpenseShare) (u : ℚ) :
    (e.amount ≤ 0 →
      calculateBalances ps (es₁ ++ e :: es₂) = calculateBalances ps (es₁ ++ es₂)) ∧
    (e.payerId ∉ ps.map (fun p => p.id) → 0 < e.amount → 0 < a' →
      calculateBalances ps (es₁ ++ e :: es₂)
        = calculateBalances ps (es₁ ++ { e with amount := a' } :: es₂)) ∧
    (e.shares = ss₁ ++ s :: ss₂ → s.participantId ∉ ps.map (fun p => p.id) →
      calculateBalances ps (es₁ ++ e :: es₂)
        = calculateBalances ps (es₁ ++ { e with shares := ss₁ ++ ss₂ } :: es₂)) ∧
    roundToUnitJs none u = roundToUnit 0 u := by
  refine ⟨?_, ?_, ?_, ?_⟩
  · intro h
    simp only [calculateBalances]
    rw [List.foldl_append, List.foldl_append, List.foldl_cons,
      applyExpense_nonpos _ _ h]
  · intro hp hpos hpos'
    simp only [calculateBalances]
    rw [List.foldl_append, List.foldl_append, List.foldl_cons, List.foldl_cons]
    have hkey : e.payerId ∉ ((es₁.foldl applyExpense
        (ps.foldl (fun led p => mapSet p.id ⟨p, 0, 0⟩ led) [])).map Prod.fst) :=
      fun hmem => hp (ledger_keys_sub ps es₁ _ hmem)
    have hXY : applyExpense (es₁.foldl applyExpense
          (ps.foldl (fun led p => mapSet p.id ⟨p, 0, 0⟩ led) [])) e
        = applyExpense (es₁.foldl applyExpense
          (ps.foldl (fun led p => mapSet p.id ⟨p, 0, 0⟩ led) []))
          { e with amount := a' } := by
      simp only [applyExpense]
      rw [if_neg (not_le.mpr hpos), if_neg (not_le.mpr hpos')]
      rw [mapAdjust_not_mem _ _ _ hkey, mapAdjust_not_mem _ _ _ hkey]
    rw [hXY]
  · intro hs hsp
    simp only [calculateBalances]
    rw [List.foldl_append, List.foldl_append, List.foldl_cons, List.foldl_cons]
    have hXY : applyExpense (es₁.foldl applyExpense
          (ps.foldl (fun led p => mapSet p.id ⟨p, 0, 0⟩ led) [])) e
        = applyExpense (es₁.foldl applyExpense
          (ps.foldl (fun led p => mapSet p.id ⟨p, 0, 0⟩ led) []))
          { e with shares := ss₁ ++ ss₂ } := by
      simp only [applyExpense]
      by_cases ha : e.amount ≤ 0
      · rw [if_pos ha, if_pos ha]
      · rw [if_neg ha, if_neg ha, hs, List.foldl_append, List.foldl_append,
          List.foldl_cons]
        have hkey : s.participantId ∉ ((ss₁.foldl (fun led sh =>
            mapAdjust sh.participantId
              (fun en => { en with shouldPay := en.shouldPay + sh.amount }) led)
            (mapAdjust e.payerId
              (fun en => { en with paid := en.paid + e.amount })
              (es₁.foldl applyExpense
                (ps.foldl (fun led p => mapSet p.id ⟨p, 0, 0⟩ led) [])))).map
              Prod.fst) := by
          rw [sharesFold_keys, mapAdjust_keys]
          exact fun hmem => hsp (ledger_keys_sub ps es₁ _ hmem)
        rw [mapAdjust_not_mem _ _ _ hkey]
    rw [hXY]
  · norm_num [roundToUnitJs, roundToUnit, jsRound]

/-- C8 witness: concrete instances of all four degradation rules on a
single participant `a`. -/
theorem c8_graceful_degradation_witness :
    (calculateBalances [mkP "a"]
        ([] ++ Expense.mk "e" "t" (-5) "a" [ExpenseShare.mk "a" 3] :: [])
      = calculateBalances [mkP "a"] ([] ++ [])) ∧
    (calculateBalances [mkP "a"]
        ([] ++ Expense.mk "e" "t" 7 "ghost" [ExpenseShare.mk "a" 3] :: [])
      = calculateBalances [mkP "a"]
        ([] ++ { Expense.mk "e" "t" 7 "ghost" [ExpenseShare.mk "a" 3]
            with amount := 9 } :: [])) ∧
    (calculateBalances [mkP "a"]
        ([] ++ Expense.mk "e" "t" 7 "a"
          [ExpenseShare.mk "ghost" 3, ExpenseShare.mk "a" 4] :: [])
      = calculateBalances [mkP "a"]
        ([] ++ { Expense.mk "e" "t" 7 "a"
            [ExpenseShare.mk "ghost" 3, ExpenseShare.mk "a" 4]
            with shares := [] ++ [ExpenseShare.mk "a" 4] } :: [])) ∧
    roundToUnitJs none 100 = roundToUnit 0 100 :=
  ⟨(c8_graceful_degradation [mkP "a"] [] []
      (Expense.mk "e" "t" (-5) "a" [ExpenseShare.mk "a" 3]) 1
      (ExpenseShare.mk "a" 3) [] [] 100).1 (by norm_num),
    (c8_graceful_degradation [mkP "a"] [] []
      (Expense.mk "e" "t" 7 "ghost" [ExpenseShare.mk "a" 3]) 9
      (ExpenseShare.mk "a" 3) [] [] 100).2.1 (by decide) (by norm_num) (by norm_num),
    (c8_graceful_degradation [mkP "a"] [] []
      (Expense.mk "e" "t" 7 "a" [ExpenseShare.mk "ghost" 3, ExpenseShare.mk "a" 4]) 1
      (ExpenseShare.mk "ghost" 3) [] [ExpenseShare.mk "a" 4] 100).2.2.1
      rfl (by decide),
    (c8_graceful_degradation [mkP "a"] [] []
      (Expense.mk "e" "t" 7 "a" [ExpenseShare.mk "ghost" 3, ExpenseShare.mk "a" 4]) 1
      (ExpenseShare.mk "ghost" 3) [] [ExpenseShare.mk "a" 4] 100).2.2.2⟩
